import Mathlib

/-!
Verification development for the swimrs repository: a shallow embedding of the
crawl partitioning engine (`divide` / `atomize` in `src/usas/mirror.rs`), the
request identity (`Display for TopTimesRequest` in `swimrs/src/usas/toptimes.rs`),
the dedup store (`swimrs-cli/src/db.rs`) and the worker pipeline
(`swimrs-cli/src/mirror.rs`), together with theorems settling the frozen claims.

Dates are modelled in two ways matching their use in the two snapshots:
as integer day numbers (chrono `NaiveDate` arithmetic is day arithmetic) for the
partitioner, and as civil `(year, month, day)` triples for the identity string
(chrono `NaiveDate`'s `Display` prints the civil form).
-/

set_option maxHeartbeats 1000000

namespace Usas

/-- Gender enum from `src/usas/model.rs`. -/
inductive Gender where
  | male
  | female
  | mixed
deriving DecidableEq, Fintype

/-- Stroke enum from `src/usas/model.rs`. -/
inductive Stroke where
  | all
  | freestyle
  | backstroke
  | breaststroke
  | butterfly
  | individualMedley
  | freestyleRelay
  | medleyRelay
deriving DecidableEq, Fintype

/-- Course enum from `src/usas/model.rs`. -/
inductive Course where
  | all
  | scy
  | scm
  | lcm
deriving DecidableEq, Fintype

/-- Zone enum from `src/usas/model.rs`. -/
inductive Zone where
  | all
  | central
  | eastern
  | southern
  | western
deriving DecidableEq, Fintype

/-- LSC enum from `src/usas/model.rs` (only `All` is implemented there). -/
inductive LSC where
  | all
deriving DecidableEq

/-- TimeType enum from `src/usas/model.rs`. -/
inductive TimeType where
  | individual
  | relay
deriving DecidableEq

/-- `TopTimesRequest` from `src/usas/toptimes.rs` (the snapshot used by
`src/usas/mirror.rs`).  `distance` is a `u16` (`0` means all distances),
dates are `chrono::NaiveDate`, modelled as integer day numbers, ages are
`Option<u8>`. -/
structure TopTimesRequest where
  gender : Gender
  distance : Nat
  stroke : Stroke
  course : Course
  from_date : Int
  to_date : Int
  start_age : Option Nat
  end_age : Option Nat
  zone : Zone
  lscs : List LSC
  time_type : TimeType
  members_only : Bool
  best_only : Bool
  max_results : Nat
deriving DecidableEq

/-- `VALID_EVENTS` from `src/usas/model.rs`: the 53 valid
(distance, stroke, course) combinations. -/
def VALID_EVENTS : List (Nat × Stroke × Course) :=
  [ (50, .freestyle, .scy), (100, .freestyle, .scy), (200, .freestyle, .scy),
    (500, .freestyle, .scy), (1000, .freestyle, .scy), (1650, .freestyle, .scy),
    (50, .backstroke, .scy), (100, .backstroke, .scy), (200, .backstroke, .scy),
    (50, .breaststroke, .scy), (100, .breaststroke, .scy), (200, .breaststroke, .scy),
    (50, .butterfly, .scy), (100, .butterfly, .scy), (200, .butterfly, .scy),
    (100, .individualMedley, .scy), (200, .individualMedley, .scy), (400, .individualMedley, .scy),
    (50, .freestyle, .scm), (100, .freestyle, .scm), (200, .freestyle, .scm),
    (400, .freestyle, .scm), (800, .freestyle, .scm), (1500, .freestyle, .scm),
    (50, .backstroke, .scm), (100, .backstroke, .scm), (200, .backstroke, .scm),
    (50, .breaststroke, .scm), (100, .breaststroke, .scm), (200, .breaststroke, .scm),
    (50, .butterfly, .scm), (100, .butterfly, .scm), (200, .butterfly, .scm),
    (100, .individualMedley, .scm), (200, .individualMedley, .scm), (400, .individualMedley, .scm),
    (50, .freestyle, .lcm), (100, .freestyle, .lcm), (200, .freestyle, .lcm),
    (400, .freestyle, .lcm), (800, .freestyle, .lcm), (1500, .freestyle, .lcm),
    (50, .backstroke, .lcm), (100, .backstroke, .lcm), (200, .backstroke, .lcm),
    (50, .breaststroke, .lcm), (100, .breaststroke, .lcm), (200, .breaststroke, .lcm),
    (50, .butterfly, .lcm), (100, .butterfly, .lcm), (200, .butterfly, .lcm),
    (200, .individualMedley, .lcm), (400, .individualMedley, .lcm) ]

/-- Modelled from the spec: the `COURSES` constant imported by
`src/usas/mirror.rs` is not present under `src/`.  Per spec section 4.2 rule 1
("If course == All: emit one child per concrete course value. (3 children.)")
and the Facet Model contract (ordered list of concrete values, enum order),
it is the three concrete courses. -/
def COURSES : List Course := [.scy, .scm, .lcm]

/-- Modelled from the spec: the `IND_STROKES` constant imported by
`src/usas/mirror.rs` is not present under `src/`.  Per spec section 4.2 rule 2
("one child per concrete individual stroke (relay strokes excluded). (5 children.)")
it is the five concrete individual strokes in enum order. -/
def IND_STROKES : List Stroke :=
  [.freestyle, .backstroke, .breaststroke, .butterfly, .individualMedley]

/-- Modelled from the spec: the `DISTANCES` constant imported by
`src/usas/mirror.rs` is not present under `src/`.  Per spec section 4.2 rule 3
(one child per concrete distance passing the valid-event check) and the
`Distance` enum of `swimrs/src/common/mod.rs`, it is the nine concrete
distances in increasing order. -/
def DISTANCES : List Nat := [50, 100, 200, 400, 500, 800, 1000, 1500, 1650]

/-- Modelled from the spec: the `ZONES` constant imported by
`src/usas/mirror.rs` is not present under `src/`.  Per spec section 4.2 rule 6
("emit one child per concrete zone") it is the four concrete zones in enum
order. -/
def ZONES : List Zone := [.central, .eastern, .southern, .western]

/-- The date-range branch of `divide` (`src/usas/mirror.rs` lines 288-313):
bisect the date range at `mid = (to - from).num_days() / 2` (Rust `/` on `i64`
truncates toward zero, hence `Int.tdiv`). -/
def dateSplit (req : TopTimesRequest) : List TopTimesRequest :=
  if Int.tdiv (req.to_date - req.from_date) 2 = 0 then
    [{ req with to_date := req.from_date }, { req with from_date := req.to_date }]
  else
    [{ req with to_date := req.from_date + (Int.tdiv (req.to_date - req.from_date) 2 - 1) },
     if req.to_date < req.from_date + Int.tdiv (req.to_date - req.from_date) 2 then
       { req with from_date := req.to_date }
     else
       { req with from_date := req.from_date + Int.tdiv (req.to_date - req.from_date) 2 }]

/-- The age branch of `divide` (`src/usas/mirror.rs` lines 315-334): fires only
when `start_age == Some(0) && end_age == None` and emits the fixed bands
(0,5), (6,6) .. (29,29), (30,unbounded). -/
def ageSplit (req : TopTimesRequest) : List TopTimesRequest :=
  { req with start_age := some 0, end_age := some 5 } ::
    ((List.range' 6 24).map fun i => { req with start_age := some i, end_age := some i }) ++
    [{ req with start_age := some 30, end_age := none }]

/-- `divide` from `src/usas/mirror.rs` lines 241-346.  Fixed rule order:
course, stroke, distance (pruned by `VALID_EVENTS`), date range, age, zone;
first applicable rule returns immediately; otherwise the empty list. -/
def divide (req : TopTimesRequest)
    (by_course by_stroke by_distance by_date by_age by_zone : Bool) :
    List TopTimesRequest :=
  if by_course = true ∧ req.course = Course.all then
    COURSES.map fun c => { req with course := c }
  else if by_stroke = true ∧ req.stroke = Stroke.all then
    IND_STROKES.map fun s => { req with stroke := s }
  else if by_distance = true ∧ req.distance = 0 then
    (DISTANCES.filter fun d => (d, req.stroke, req.course) ∈ VALID_EVENTS).map
      fun d => { req with distance := d }
  else if by_date = true ∧ req.from_date ≠ req.to_date then
    dateSplit req
  else if by_age = true ∧ req.start_age = some 0 ∧ req.end_age = none then
    ageSplit req
  else if by_zone = true ∧ req.zone = Zone.all then
    ZONES.map fun z => { req with zone := z }
  else []

/-- `atomize` from `src/usas/mirror.rs` lines 207-237, as an explicitly fuelled
FIFO work-list loop: pop the front, `divide` it, append leaves to the output
and non-leaf children to the back of the queue.  Each unit of fuel allows one
pop; `none` means the fuel ran out with work still queued. -/
def atomizeGo (bc bs bd bdt ba bz : Bool) :
    Nat → List TopTimesRequest → List TopTimesRequest → Option (List TopTimesRequest)
  | _, [], out => some out
  | 0, _ :: _, _ => none
  | fuel + 1, r :: queue, out =>
    let d := divide r bc bs bd bdt ba bz
    if d = [] then atomizeGo bc bs bd bdt ba bz fuel queue (out ++ [r])
    else atomizeGo bc bs bd bdt ba bz fuel (queue ++ d) out

/-- `divide` with the flag configuration the mirror engages
(all axes enabled except the optional zone axis). -/
def divideStd (req : TopTimesRequest) : List TopTimesRequest :=
  divide req true true true true true false

/-- Coordinates of one remote record, insofar as a request constrains it:
the logical result space of a request is the set of record keys it matches. -/
structure RecordKey where
  gender : Gender
  course : Course
  stroke : Stroke
  distance : Nat
  date : Int
  age : Nat
  zone : Zone
deriving DecidableEq

/-- Lower age bound check: `none` is the wildcard. -/
def optLB (o : Option Nat) (n : Nat) : Prop :=
  match o with
  | none => True
  | some a => a ≤ n

/-- Upper age bound check: `none` is the wildcard. -/
def optUB (o : Option Nat) (n : Nat) : Prop :=
  match o with
  | none => True
  | some a => n ≤ a

instance (o : Option Nat) (n : Nat) : Decidable (optLB o n) := by
  unfold optLB; exact match o with | none => inferInstance | some _ => inferInstance

instance (o : Option Nat) (n : Nat) : Decidable (optUB o n) := by
  unfold optUB; exact match o with | none => inferInstance | some _ => inferInstance

/-- A record key lies in a request's logical result space: every facet matches,
wildcards (`All`, distance `0`, age `None`, gender `Mixed`) match everything,
dates are an inclusive range. -/
def inSpace (q : TopTimesRequest) (r : RecordKey) : Prop :=
  (q.gender = Gender.mixed ∨ q.gender = r.gender) ∧
  (q.course = Course.all ∨ q.course = r.course) ∧
  (q.stroke = Stroke.all ∨ q.stroke = r.stroke) ∧
  (q.distance = 0 ∨ q.distance = r.distance) ∧
  (q.from_date ≤ r.date ∧ r.date ≤ q.to_date) ∧
  (optLB q.start_age r.age ∧ optUB q.end_age r.age) ∧
  (q.zone = Zone.all ∨ q.zone = r.zone)

instance (q : TopTimesRequest) (r : RecordKey) : Decidable (inSpace q r) := by
  unfold inSpace; infer_instance

/-- A record key whose event triple actually occurs in the remote domain. -/
def validRec (r : RecordKey) : Prop :=
  (r.distance, r.stroke, r.course) ∈ VALID_EVENTS

instance (r : RecordKey) : Decidable (validRec r) := by
  unfold validRec; infer_instance

/-- Day `d` lies in the request's inclusive date range. -/
def dayIn (q : TopTimesRequest) (d : Int) : Prop :=
  q.from_date ≤ d ∧ d ≤ q.to_date

instance (q : TopTimesRequest) (d : Int) : Decidable (dayIn q d) := by
  unfold dayIn; infer_instance

/-- A concrete fully-pinned one-day request, used as a base for concrete
instances below. -/
def exBase : TopTimesRequest :=
  { gender := .male, distance := 50, stroke := .freestyle, course := .scy,
    from_date := 0, to_date := 0, start_age := some 10, end_age := some 10,
    zone := .all, lscs := [.all], time_type := .individual,
    members_only := false, best_only := false, max_results := 5000 }

/-- Concrete request whose only unpinned facet is the default age range
`(Some 0, None)`. -/
def exAgeReq : TopTimesRequest := { exBase with start_age := some 0, end_age := none }

/-- Concrete request with a reversed date range (`from` one day after `to`). -/
def exRevReq : TopTimesRequest := { exBase with from_date := 1, to_date := 0 }

/-- Concrete request with a reversed date range (`from` two days after `to`). -/
def exRev2Req : TopTimesRequest := { exBase with from_date := 0, to_date := -2 }

/-- Concrete request with a two-day date range. -/
def exTwoDayReq : TopTimesRequest := { exBase with from_date := 0, to_date := 1 }

/-- Concrete request with the course facet wildcarded. -/
def exCourseAllReq : TopTimesRequest := { exBase with course := Course.all }

/-- Number of concrete distances forming a valid event with the given stroke
and course (the number of children the distance rule emits). -/
def validCount (s : Stroke) (c : Course) : Nat :=
  (DISTANCES.filter fun d => (d, s, c) ∈ VALID_EVENTS).length

/-- Distance factor of the partition measure: how many leaves the distance
axis can still contribute (at least 1 so the measure stays positive). -/
def dfac (bd : Bool) (dist : Nat) (s : Stroke) (c : Course) : Nat :=
  if bd = true ∧ dist = 0 then max (validCount s c) 1 else 1

/-- Courses the course axis can still expand a request into. -/
def coursesOf (bc : Bool) (req : TopTimesRequest) : List Course :=
  if bc = true ∧ req.course = Course.all then COURSES else [req.course]

/-- Strokes the stroke axis can still expand a request into. -/
def strokesOf (bs : Bool) (req : TopTimesRequest) : List Stroke :=
  if bs = true ∧ req.stroke = Stroke.all then IND_STROKES else [req.stroke]

/-- Measure contribution of the stroke and distance axes at a fixed course. -/
def strokeSum (bs bd : Bool) (req : TopTimesRequest) (c : Course) : Nat :=
  ((strokesOf bs req).map fun s => dfac bd req.distance s c).sum

/-- Measure contribution of the course, stroke and distance axes. -/
def csWeight (bc bs bd : Bool) (req : TopTimesRequest) : Nat :=
  ((coursesOf bc req).map fun c => strokeSum bs bd req c).sum

/-- Measure contribution of the date axis: the number of days in the range
while the date axis is still splittable, otherwise 1. -/
def dateWeight (bdt : Bool) (req : TopTimesRequest) : Nat :=
  if bdt = true ∧ req.from_date ≠ req.to_date then (req.to_date - req.from_date + 1).toNat
  else 1

/-- Measure contribution of the age axis: the 26 fixed bands while the age
axis is still splittable, otherwise 1. -/
def ageWeight (ba : Bool) (req : TopTimesRequest) : Nat :=
  if ba = true ∧ req.start_age = some 0 ∧ req.end_age = none then 26 else 1

/-- Measure contribution of the zone axis. -/
def zoneWeight (bz : Bool) (req : TopTimesRequest) : Nat :=
  if bz = true ∧ req.zone = Zone.all then 4 else 1

/-- Measure contribution of the date, age and zone axes. -/
def restW (bdt ba bz : Bool) (req : TopTimesRequest) : Nat :=
  dateWeight bdt req * (ageWeight ba req * zoneWeight bz req)

/-- The partition measure: an upper bound on the number of leaves `atomize`
can still produce below this request.  Every child of a non-empty `divide`
has strictly smaller measure (for a well-ordered date range). -/
def weight (bc bs bd bdt ba bz : Bool) (req : TopTimesRequest) : Nat :=
  csWeight bc bs bd req * restW bdt ba bz req

/-- Remaining work-list budget of a queue: each queued request `r` can cost at
most `2 * weight r - 1` pops. -/
def queueWeight (bc bs bd bdt ba bz : Bool) (l : List TopTimesRequest) : Nat :=
  (l.map fun r => 2 * weight bc bs bd bdt ba bz r - 1).sum

/-- The product of the facets' concrete cardinalities for a request:
3 courses x 5 individual strokes x 9 distances x 26 atomic age bands x
4 zones x the number of days in the request's date window. -/
def facetProduct (req : TopTimesRequest) : Nat :=
  3 * 5 * 9 * 26 * 4 * (req.to_date - req.from_date + 1).toNat

/-- Two requests have disjoint logical result spaces: no valid record key is
matched by both. -/
def spacesDisjoint (a b : TopTimesRequest) : Prop :=
  ∀ r : RecordKey, validRec r → ¬(inSpace a r ∧ inSpace b r)

/-- `atomize` with the mirror's flag configuration, run with the
`facetProduct` fuel budget (shown sufficient in `atomizeGo_total`). -/
def atomizeStd (q : TopTimesRequest) : List TopTimesRequest :=
  (atomizeGo true true true true true false (facetProduct q) [q] []).getD []

/-- A concrete valid record key used in counterexamples. -/
def exRec : RecordKey :=
  { gender := .male, course := .scy, stroke := .freestyle, distance := 50,
    date := 1, age := 10, zone := .central }

end Usas

namespace Swimrs

/-- Decimal digit character, as produced by Rust integer `Display`. -/
def digitChar (n : Nat) : Char :=
  match n with
  | 0 => '0' | 1 => '1' | 2 => '2' | 3 => '3' | 4 => '4'
  | 5 => '5' | 6 => '6' | 7 => '7' | 8 => '8' | _ => '9'

/-- Fuelled digit loop: `fuel` bounds the recursion depth, a fuel of at least
the value itself always suffices. -/
def natReprGo (fuel n : Nat) : List Char :=
  match fuel with
  | 0 => [digitChar n]
  | f + 1 =>
    if n < 10 then [digitChar n]
    else natReprGo f (n / 10) ++ [digitChar (n % 10)]

/-- Decimal rendering of a natural number, as Rust `Display` for `u8`/`u32`. -/
def natRepr (n : Nat) : List Char := natReprGo n n

/-- Value of a digit character. -/
def digitVal (c : Char) : Nat := c.toNat - 48

/-- Left fold reading a digit string back as a number. -/
def parseVal (l : List Char) : Nat :=
  l.foldl (fun acc c => 10 * acc + digitVal c) 0

/-- Zero-padding to width 2, as chrono `%m` / `%d` (months/days never exceed 99). -/
def pad2 (n : Nat) : List Char :=
  if n < 10 then '0' :: natRepr n else natRepr n

/-- Zero-padding to width 4, as chrono `%Y` applies to the absolute year value. -/
def pad4 (n : Nat) : List Char :=
  List.replicate (4 - (natRepr n).length) '0' ++ natRepr n

/-- Year rendering as chrono `%Y` (ISO 8601 extended: a sign is emitted exactly
for years outside `0..=9999`, the absolute value is zero-padded to width 4). -/
def yearStr (y : Int) : List Char :=
  if 0 ≤ y ∧ y ≤ 9999 then pad4 y.toNat
  else if y < 0 then '-' :: pad4 (-y).toNat
  else '+' :: pad4 y.toNat

/-- Civil date as held by chrono `NaiveDate`: year, month, day. -/
structure CDate where
  year : Int
  month : Nat
  day : Nat
deriving DecidableEq

/-- Range invariant maintained by every chrono `NaiveDate` value. -/
def CDate.valid (d : CDate) : Prop :=
  1 ≤ d.month ∧ d.month ≤ 12 ∧ 1 ≤ d.day ∧ d.day ≤ 31 ∧
    -262143 ≤ d.year ∧ d.year ≤ 262142

instance (d : CDate) : Decidable d.valid := by
  unfold CDate.valid
  infer_instance

/-- chrono `NaiveDate` `Display`: ISO 8601 `%Y-%m-%d`. -/
def dateStr (d : CDate) : List Char :=
  yearStr d.year ++ '-' :: (pad2 d.month ++ '-' :: pad2 d.day)

/-- Gender enum from `swimrs/src/common/mod.rs`. -/
inductive Gender where
  | male
  | female
  | mixed
deriving DecidableEq, Fintype

/-- Distance enum from `swimrs/src/common/mod.rs`. -/
inductive Distance where
  | all
  | d50
  | d100
  | d200
  | d400
  | d500
  | d800
  | d1000
  | d1500
  | d1650
deriving DecidableEq, Fintype

/-- Stroke enum from `swimrs/src/common/mod.rs`. -/
inductive Stroke where
  | all
  | freestyle
  | backstroke
  | breaststroke
  | butterfly
  | individualMedley
  | freestyleRelay
  | medleyRelay
deriving DecidableEq, Fintype

/-- Course enum from `swimrs/src/common/mod.rs`. -/
inductive Course where
  | all
  | scy
  | scm
  | lcm
deriving DecidableEq, Fintype

/-- Zone enum from `swimrs/src/common/mod.rs`. -/
inductive Zone where
  | all
  | central
  | eastern
  | southern
  | western
deriving DecidableEq, Fintype

/-- LSC enum from `swimrs/src/common/mod.rs` (Rust `IN` is spelled `iN` here
because `in` is a Lean keyword). -/
inductive LSC where
  | all
  | unattached
  | ad
  | ak
  | am
  | az
  | ar
  | bd
  | cc
  | co
  | ct
  | fg
  | fl
  | ga
  | gu
  | hi
  | il
  | iN
  | ie
  | ia
  | ky
  | le
  | la
  | me
  | md
  | mr
  | mi
  | ma
  | mw
  | mn
  | ms
  | mv
  | mt
  | ne
  | nj
  | nm
  | ni
  | nc
  | nd
  | nt
  | oh
  | ok
  | oR
  | oz
  | pn
  | pc
  | pv
  | si
  | sn
  | sr
  | sc
  | sd
  | st
  | se
  | ca
  | us
  | ut
  | va
  | wt
  | wv
  | wi
  | wy
deriving DecidableEq, Fintype

/-- TimeType enum from `swimrs/src/common/mod.rs`. -/
inductive TimeType where
  | individual
  | relay
deriving DecidableEq, Fintype

/-- `TopTimesRequest` from `swimrs/src/usas/toptimes.rs`: dates are chrono
`NaiveDate` (civil triples), ages `Option<u8>`, `lscs` an `Option<Vec<LSC>>`,
`max_results` a `u32`. -/
structure TopTimesRequest where
  gender : Gender
  distance : Distance
  stroke : Stroke
  course : Course
  from_date : CDate
  to_date : CDate
  start_age : Option Nat
  end_age : Option Nat
  zone : Zone
  lscs : Option (List LSC)
  time_type : TimeType
  members_only : Bool
  best_only : Bool
  max_results : Nat
deriving DecidableEq

/-- strum `Display` for `Gender` (variant name). -/
def genderStr : Gender → List Char
  | .male => "Male".data
  | .female => "Female".data
  | .mixed => "Mixed".data

/-- strum `Display` for `Distance` (variant name, e.g. `_50`). -/
def distStr : Distance → List Char
  | .all => "All".data
  | .d50 => "_50".data
  | .d100 => "_100".data
  | .d200 => "_200".data
  | .d400 => "_400".data
  | .d500 => "_500".data
  | .d800 => "_800".data
  | .d1000 => "_1000".data
  | .d1500 => "_1500".data
  | .d1650 => "_1650".data

/-- strum `Display` for `Stroke` (per-variant `serialize` strings). -/
def strokeStr : Stroke → List Char
  | .all => "All".data
  | .freestyle => "FR".data
  | .backstroke => "BK".data
  | .breaststroke => "BR".data
  | .butterfly => "FL".data
  | .individualMedley => "IM".data
  | .freestyleRelay => "FR-R".data
  | .medleyRelay => "MED-R".data

/-- strum `Display` for `Course`. -/
def courseStr : Course → List Char
  | .all => "All".data
  | .scy => "SCY".data
  | .scm => "SCM".data
  | .lcm => "LCM".data

/-- strum `Display` for `Zone` (variant name). -/
def zoneStr : Zone → List Char
  | .all => "All".data
  | .central => "Central".data
  | .eastern => "Eastern".data
  | .southern => "Southern".data
  | .western => "Western".data

/-- strum `Display` for `LSC` (per-variant `serialize` strings). -/
def lscStr : LSC → List Char
  | .all => "All".data
  | .unattached => "UN".data
  | .ad => "AD".data
  | .ak => "AK".data
  | .am => "AM".data
  | .az => "AZ".data
  | .ar => "AR".data
  | .bd => "BD".data
  | .cc => "CC".data
  | .co => "CO".data
  | .ct => "CT".data
  | .fg => "FG".data
  | .fl => "FL".data
  | .ga => "GA".data
  | .gu => "GU".data
  | .hi => "HI".data
  | .il => "IL".data
  | .iN => "IN".data
  | .ie => "IE".data
  | .ia => "IA".data
  | .ky => "KY".data
  | .le => "LE".data
  | .la => "LA".data
  | .me => "ME".data
  | .md => "MD".data
  | .mr => "MR".data
  | .mi => "MI".data
  | .ma => "MA".data
  | .mw => "MW".data
  | .mn => "MN".data
  | .ms => "MS".data
  | .mv => "MV".data
  | .mt => "MT".data
  | .ne => "NE".data
  | .nj => "NJ".data
  | .nm => "NM".data
  | .ni => "NI".data
  | .nc => "NC".data
  | .nd => "ND".data
  | .nt => "NT".data
  | .oh => "OH".data
  | .ok => "OK".data
  | .oR => "OR".data
  | .oz => "OZ".data
  | .pn => "PN".data
  | .pc => "PC".data
  | .pv => "PV".data
  | .si => "SI".data
  | .sn => "SN".data
  | .sr => "SR".data
  | .sc => "SC".data
  | .sd => "SD".data
  | .st => "ST".data
  | .se => "SE".data
  | .ca => "CA".data
  | .us => "US".data
  | .ut => "UT".data
  | .va => "VA".data
  | .wt => "WT".data
  | .wv => "WV".data
  | .wi => "WI".data
  | .wy => "WY".data

/-- strum `Display` for `TimeType` (variant name). -/
def ttStr : TimeType → List Char
  | .individual => "Individual".data
  | .relay => "Relay".data

/-- Rust `Display` for `bool`. -/
def boolStr (b : Bool) : List Char :=
  if b then "true".data else "false".data

/-- Age component of the identity: the number, or `All` when unbounded. -/
def ageStr : Option Nat → List Char
  | none => "All".data
  | some n => natRepr n

/-- `Vec::join("+")`. -/
def joinPlus : List (List Char) → List Char
  | [] => []
  | [x] => x
  | x :: xs => x ++ '+' :: joinPlus xs

/-- LSC list component of the identity: joined codes, or `All` when absent. -/
def lscsStr : Option (List LSC) → List Char
  | none => "All".data
  | some l => joinPlus (l.map lscStr)

/-- `Display for TopTimesRequest` from `swimrs/src/usas/toptimes.rs`:
`"{}/{}_{}_{}/{}_{}/{}_{}_{}_{}/{}_{}/{}_{}"` over gender,
course/stroke/distance, zone/lscs, time type/members/best/max results,
start/end age, from/to date. -/
def display (q : TopTimesRequest) : List Char :=
  genderStr q.gender ++ '/' ::
  (courseStr q.course ++ '_' :: (strokeStr q.stroke ++ '_' ::
  (distStr q.distance ++ '/' ::
  (zoneStr q.zone ++ '_' :: (lscsStr q.lscs ++ '/' ::
  (ttStr q.time_type ++ '_' :: (boolStr q.members_only ++ '_' ::
  (boolStr q.best_only ++ '_' :: (natRepr q.max_results ++ '/' ::
  (ageStr q.start_age ++ '_' :: (ageStr q.end_age ++ '/' ::
  (dateStr q.from_date ++ '_' :: dateStr q.to_date))))))))))))

/-- ASCII lowercasing of a character list (`str::to_lowercase`). -/
def lowerStr (l : List Char) : List Char := l.map Char.toLower

/-- Request identity used by the worker:
`req.to_string().to_lowercase()` (`swimrs-cli/src/mirror.rs` line 132). -/
def reqId (q : TopTimesRequest) : List Char := lowerStr (display q)

/-- State column of a row in the `requests` table (`swimrs-cli/src/db.rs`). -/
inductive ReqState where
  | success
  | error
deriving DecidableEq

/-- A row of the `requests` table: state, `num_results`, `error`, `duration`. -/
structure DbRec where
  state : ReqState
  num_results : Option Nat
  error : Option (List Char)
  duration : Rat
deriving DecidableEq

/-- The `requests` table, keyed by the request id (`id TEXT PRIMARY KEY`). -/
abbrev Db := List (List Char × DbRec)

/-- Lookup by primary key. -/
def lookupDb : Db → List Char → Option DbRec
  | [], _ => none
  | (k, v) :: rest, i => if k = i then some v else lookupDb rest i

/-- `check_request_success`: `SELECT 1 FROM requests WHERE id = ? AND
state = 'success'` (`swimrs-cli/src/db.rs` lines 40-49). -/
def check_request_success (db : Db) (i : List Char) : Bool :=
  match lookupDb db i with
  | some v => v.state == ReqState.success
  | none => false

/-- `upsert_request_success`: `REPLACE INTO requests` — insert, replacing any
existing row with the same key (`swimrs-cli/src/db.rs` lines 51-69). -/
def upsert_request_success (db : Db) (i : List Char) (n : Nat) (dur : Rat) : Db :=
  match db with
  | [] => [(i, ⟨.success, some n, none, dur⟩)]
  | (k, v) :: rest =>
    if k = i then (k, ⟨.success, some n, none, dur⟩) :: rest
    else (k, v) :: upsert_request_success rest i n dur

/-- `upsert_request_error`: `INSERT OR IGNORE INTO requests` — insert only
when no row with the key exists (`swimrs-cli/src/db.rs` lines 71-89). -/
def upsert_request_error (db : Db) (i : List Char) (e : List Char) (dur : Rat) : Db :=
  if (lookupDb db i).isSome then db
  else db ++ [(i, ⟨.error, none, some e, dur⟩)]

/-- Outcome of `process_request` (fetch + parse): a result count or an error. -/
inductive FetchOutcome where
  | ok (count : Nat)
  | err (msg : List Char)
deriving DecidableEq

/-- Observable effect of one loop iteration of `process_requests`
(`swimrs-cli/src/mirror.rs` lines 121-167): the updated store, whether the
fetch was performed, and any requeued requests. -/
structure StepResult where
  db : Db
  fetched : Bool
  requeued : List TopTimesRequest
deriving DecidableEq

/-- One loop iteration of `process_requests`: build the id, skip if a success
row exists, otherwise fetch; on `Ok(l)` record success (always), on `Err`
record the error and requeue the request. -/
def processStep (db : Db) (req : TopTimesRequest) (oc : FetchOutcome) : StepResult :=
  if check_request_success db (reqId req) then ⟨db, false, []⟩
  else
    match oc with
    | .ok l => ⟨upsert_request_success db (reqId req) l 0, true, []⟩
    | .err e => ⟨upsert_request_error db (reqId req) e 0, true, [req]⟩

/-- A worker draining a queue of requests with prescribed fetch outcomes;
returns the final store and the ids of the requests actually fetched. -/
def runWorker : Db → List (TopTimesRequest × FetchOutcome) → Db × List (List Char)
  | db, [] => (db, [])
  | db, (req, oc) :: rest =>
    ((runWorker (processStep db req oc).db rest).1,
     (if (processStep db req oc).fetched then [reqId req] else [])
       ++ (runWorker (processStep db req oc).db rest).2)

/-- Observable effect of `make_request` in the first-generation pipeline
(`src/usas/mirror.rs` lines 163-203): on success the result file is always
written and a warning file is additionally written when at least 4900 times
were found; only an error causes a requeue. -/
structure OldEffect where
  wroteResult : Bool
  warned : Bool
  requeued : Bool
deriving DecidableEq

/-- Effect of `make_request` as a function of the fetch outcome. -/
def make_request_effect : FetchOutcome → OldEffect
  | .ok n => ⟨true, decide (4900 ≤ n), false⟩
  | .err _ => ⟨false, false, true⟩

/-- chrono leap-year rule (proleptic Gregorian). -/
def leapYear (y : Int) : Bool :=
  decide ((y % 4 = 0 ∧ ¬ y % 100 = 0) ∨ y % 400 = 0)

/-- Days in a civil month. -/
def daysInMonth (y : Int) (m : Nat) : Nat :=
  if m = 2 then (if leapYear y then 29 else 28)
  else if m = 4 ∨ m = 6 ∨ m = 9 ∨ m = 11 then 30
  else 31

/-- chrono `NaiveDate::succ`: the next civil day. -/
def nextDay (d : CDate) : CDate :=
  if d.day < daysInMonth d.year d.month then ⟨d.year, d.month, d.day + 1⟩
  else if d.month < 12 then ⟨d.year, d.month + 1, 1⟩
  else ⟨d.year + 1, 1, 1⟩

/-- Day number of a civil date (Howard Hinnant's `days_from_civil`, the
algorithm underlying chrono date subtraction); `Int.fdiv` is the floored
division the C++ original computes for the era. -/
def daysFromCivil (d : CDate) : Int :=
  let y : Int := if d.month ≤ 2 then d.year - 1 else d.year
  let era : Int := Int.fdiv y 400
  let yoe : Int := y - era * 400
  let mp : Int := if 2 < d.month then (d.month : Int) - 3 else (d.month : Int) + 9
  let doy : Int := (153 * mp + 2) / 5 + (d.day : Int) - 1
  let doe : Int := yoe * 365 + yoe / 4 - yoe / 100 + doy
  era * 146097 + doe - 719468

/-- The fixed age-band table of `produce_requests`
(`swimrs-cli/src/mirror.rs` lines 65-83). -/
def AGE_RANGE : List (Option Nat × Option Nat) :=
  [(some 0, some 7), (some 8, some 8), (some 9, some 9), (some 10, some 10),
   (some 11, some 11), (some 12, some 12), (some 13, some 13), (some 14, some 14),
   (some 15, some 15), (some 16, some 16), (some 17, some 17), (some 18, some 18),
   (some 19, some 19), (some 20, some 20), (some 21, some 21), (some 22, some 22),
   (some 23, none)]

/-- `TopTimesRequest::default()` (`swimrs/src/usas/toptimes.rs` lines 170-194);
the current date (an effect of `Local::now`) is passed explicitly. -/
def defaultReq (today : CDate) : TopTimesRequest :=
  { gender := .mixed, distance := .all, stroke := .all, course := .all,
    from_date := today, to_date := today, start_age := none, end_age := none,
    zone := .all, lscs := none, time_type := .individual,
    members_only := false, best_only := false, max_results := 50000 }

/-- `from_date.iter_days().take(n)`. -/
def dayIter : Nat → CDate → List CDate
  | 0, _ => []
  | n + 1, d => d :: dayIter n (nextDay d)

/-- `produce_requests` (`swimrs-cli/src/mirror.rs` lines 60-109): for each day
of the window and each age band, emit a male and a female request built from
the default. `num_days` models `(to_date - from_date).num_days() as usize + 1`
with the release-mode `usize` wrap-around. -/
def produce_requests (today from_date to_date : CDate) : List TopTimesRequest :=
  let num_days : Nat :=
    (((daysFromCivil to_date - daysFromCivil from_date).emod (2 ^ 64)).toNat + 1) % 2 ^ 64
  (dayIter num_days from_date).flatMap fun d =>
    AGE_RANGE.flatMap fun ae =>
      [{ defaultReq today with
          gender := .male
          from_date := d
          to_date := d
          start_age := ae.1
          end_age := ae.2 },
       { defaultReq today with
          gender := .female
          from_date := d
          to_date := d
          start_age := ae.1
          end_age := ae.2 }]

/-- An arbitrary concrete "current date" standing for `Local::now()`. -/
def exToday : CDate := ⟨2021, 6, 1⟩

/-- The default request at the example date. -/
def c1Req : TopTimesRequest := defaultReq exToday

/-- Male default request, used to instantiate the identity theorems. -/
def c8ReqA : TopTimesRequest := { defaultReq exToday with gender := .male }

/-- Female default request. -/
def c8ReqB : TopTimesRequest := { defaultReq exToday with gender := .female }

/-- A request agreeing with the default on every spec-listed facet but with a
different result cap. -/
def c8ReqC : TopTimesRequest :=
  { defaultReq exToday with
      gender := .male
      max_results := 100 }

/-- Example store key. -/
def c6Id : List Char := ['a', 'b']

/-- Example error text. -/
def c6Err : List Char := ['o', 'o', 'p', 's']

/-- Example store holding a success row for `c6Id`. -/
def c6Db : Db := upsert_request_success [] c6Id 7 0

/-- Example store holding a success row for `c1Req`'s identity. -/
def c5Db : Db := upsert_request_success [] (reqId c1Req) 5 0

/-- First request of the seed grid at the example date. -/
def c10Req : TopTimesRequest :=
  { defaultReq exToday with
      gender := .male
      from_date := exToday
      to_date := exToday
      start_age := some 0
      end_age := some 7 }

end Swimrs

namespace Usas

theorem divideStd_eq_dateSplit (q : TopTimesRequest) (h1 : q.course ≠ Course.all)
    (h2 : q.stroke ≠ Stroke.all) (h3 : q.distance ≠ 0) (h4 : q.from_date ≠ q.to_date) :
    divideStd q = dateSplit q := by
  simp [divideStd, divide, h1, h2, h3, h4]

theorem divideStd_eq_ageSplit (q : TopTimesRequest) (h1 : q.course ≠ Course.all)
    (h2 : q.stroke ≠ Stroke.all) (h3 : q.distance ≠ 0) (h4 : q.from_date = q.to_date)
    (h5 : q.start_age = some 0) (h6 : q.end_age = none) :
    divideStd q = ageSplit q := by
  simp [divideStd, divide, h1, h2, h3, h4, h5, h6]

theorem divideStd_eq_nil (q : TopTimesRequest) (h1 : q.course ≠ Course.all)
    (h2 : q.stroke ≠ Stroke.all) (h3 : q.distance ≠ 0) (h4 : q.from_date = q.to_date)
    (h5 : ¬(q.start_age = some 0 ∧ q.end_age = none)) :
    divideStd q = [] := by
  unfold divideStd divide
  rw [if_neg (by simp [h1]), if_neg (by simp [h2]), if_neg (by simp [h3]),
    if_neg (by simp [h4]), if_neg (by simpa using h5), if_neg (by simp)]

theorem ageSplit_length (q : TopTimesRequest) : (ageSplit q).length = 26 := by
  simp [ageSplit]

/-- C9: for every query with `course == All`, one `divide` call returns exactly
3 children, one per concrete course in order SCY, SCM, LCM, each child keeping
every other field of the parent unchanged (the record updates touch only
`course`). -/
theorem c9_course_split (q : TopTimesRequest) (bs bd bdt ba bz : Bool)
    (h : q.course = Course.all) :
    divide q true bs bd bdt ba bz =
      [{ q with course := Course.scy }, { q with course := Course.scm },
       { q with course := Course.lcm }] ∧
    (divide q true bs bd bdt ba bz).length = 3 := by
  refine ⟨by simp [divide, h, COURSES], by simp [divide, h, COURSES]⟩

/-- C9 witness: the course split evaluated on a concrete wildcard-course
request. -/
theorem c9_course_split_witness :
    divide exCourseAllReq true true true true true false =
      [{ exCourseAllReq with course := Course.scy },
       { exCourseAllReq with course := Course.scm },
       { exCourseAllReq with course := Course.lcm }] ∧
    (divide exCourseAllReq true true true true true false).length = 3 :=
  c9_course_split exCourseAllReq true true true true false (by decide)

/-- C3 counterexample: on the concrete request whose only unpinned facet is the
default age range `(Some 0, None)`, `divide` does not bisect the age interval
into two sub-intervals: it returns 26 children. -/
theorem c3_counterexample : (divideStd exAgeReq).length = 26 ∧ ¬(divideStd exAgeReq).length = 2 := by
  decide

/-- C3 (amended): the age axis is split only when the age interval is exactly
`(Some 0, None)`, in which case `divide` emits the fixed table
(0-5), (6,6) .. (29,29), (30,unbounded) - 26 children, not a midpoint
bisection; any other age interval is never split (the request is a leaf once
course, stroke, distance are concrete and the date range is a single day). -/
theorem c3_age_fixed_table :
    (∀ q : TopTimesRequest, q.course ≠ Course.all → q.stroke ≠ Stroke.all →
      q.distance ≠ 0 → q.from_date = q.to_date →
      q.start_age = some 0 → q.end_age = none →
      divideStd q = ageSplit q ∧ (divideStd q).length = 26) ∧
    (∀ q : TopTimesRequest, q.course ≠ Course.all → q.stroke ≠ Stroke.all →
      q.distance ≠ 0 → q.from_date = q.to_date →
      ¬(q.start_age = some 0 ∧ q.end_age = none) →
      divideStd q = []) := by
  constructor
  · intro q h1 h2 h3 h4 h5 h6
    have he := divideStd_eq_ageSplit q h1 h2 h3 h4 h5 h6
    exact ⟨he, by rw [he, ageSplit_length]⟩
  · intro q h1 h2 h3 h4 h5
    exact divideStd_eq_nil q h1 h2 h3 h4 h5

/-- C3 amended witness: the fixed age table evaluated on a concrete request. -/
theorem c3_age_fixed_table_witness :
    divideStd exAgeReq = ageSplit exAgeReq ∧ (divideStd exAgeReq).length = 26 :=
  c3_age_fixed_table.1 exAgeReq (by decide) (by decide) (by decide) (by decide)
    (by decide) (by decide)

/-- C4 counterexample: for a request with `date-from != date-to` but the range
reversed (from one day after to), the two children returned by `divide` do not
union to the parent's (empty) inclusive range: day 1 lies in the first child's
range but not in the parent's. -/
theorem c4_counterexample :
    divideStd exRevReq =
      [{ exRevReq with to_date := exRevReq.from_date },
       { exRevReq with from_date := exRevReq.to_date }] ∧
    dayIn { exRevReq with to_date := exRevReq.from_date } 1 ∧ ¬ dayIn exRevReq 1 := by
  decide

/-- C4 (amended): for every query with concrete course, stroke and distance and
`date-from < date-to`, `divide` returns exactly two children with contiguous,
non-overlapping inclusive date ranges whose union is exactly the parent's
range; a 2-day range splits into the two single-day ranges; and when
`date-from = date-to` no child of `divide` changes the date range. -/
theorem c4_date_bisection :
    (∀ q : TopTimesRequest, q.course ≠ Course.all → q.stroke ≠ Stroke.all →
      q.distance ≠ 0 → q.from_date < q.to_date →
      ∃ l r, divideStd q = [l, r] ∧
        l.from_date = q.from_date ∧ r.to_date = q.to_date ∧
        l.to_date + 1 = r.from_date ∧
        l.from_date ≤ l.to_date ∧ r.from_date ≤ r.to_date ∧
        (∀ d : Int, dayIn q d ↔ (dayIn l d ∨ dayIn r d)) ∧
        (∀ d : Int, ¬(dayIn l d ∧ dayIn r d)) ∧
        (q.to_date = q.from_date + 1 →
          l = { q with to_date := q.from_date } ∧
          r = { q with from_date := q.to_date })) ∧
    (∀ q : TopTimesRequest, q.from_date = q.to_date →
      ∀ c ∈ divideStd q, c.from_date = q.from_date ∧ c.to_date = q.to_date) := by
  constructor
  · intro q h1 h2 h3 h4
    rw [divideStd_eq_dateSplit q h1 h2 h3 (by omega)]
    unfold dateSplit
    have htd : Int.tdiv (q.to_date - q.from_date) 2 = (q.to_date - q.from_date) / 2 :=
      Int.tdiv_eq_ediv (by omega) (by norm_num)
    rw [htd]
    by_cases hm : (q.to_date - q.from_date) / 2 = 0
    · rw [if_pos hm]
      have h2d : q.to_date = q.from_date + 1 := by omega
      refine ⟨_, _, rfl, rfl, rfl, show q.from_date + 1 = q.to_date by omega,
        show q.from_date ≤ q.from_date by omega,
        show q.to_date ≤ q.to_date by omega, ?_, ?_, fun _ => ⟨rfl, rfl⟩⟩
      · intro d
        show (q.from_date ≤ d ∧ d ≤ q.to_date) ↔
          ((q.from_date ≤ d ∧ d ≤ q.from_date) ∨ (q.to_date ≤ d ∧ d ≤ q.to_date))
        omega
      · intro d
        show ¬((q.from_date ≤ d ∧ d ≤ q.from_date) ∧ (q.to_date ≤ d ∧ d ≤ q.to_date))
        omega
    · rw [if_neg hm]
      have hmid1 : 1 ≤ (q.to_date - q.from_date) / 2 := by omega
      have hmid2 : (q.to_date - q.from_date) / 2 ≤ q.to_date - q.from_date := by omega
      rw [if_neg (show ¬(q.to_date < q.from_date + (q.to_date - q.from_date) / 2) by omega)]
      refine ⟨_, _, rfl, rfl, rfl,
        show q.from_date + ((q.to_date - q.from_date) / 2 - 1) + 1 =
          q.from_date + (q.to_date - q.from_date) / 2 by omega,
        show q.from_date ≤ q.from_date + ((q.to_date - q.from_date) / 2 - 1) by omega,
        show q.from_date + (q.to_date - q.from_date) / 2 ≤ q.to_date by omega,
        ?_, ?_, ?_⟩
      · intro d
        show (q.from_date ≤ d ∧ d ≤ q.to_date) ↔
          ((q.from_date ≤ d ∧ d ≤ q.from_date + ((q.to_date - q.from_date) / 2 - 1)) ∨
           (q.from_date + (q.to_date - q.from_date) / 2 ≤ d ∧ d ≤ q.to_date))
        omega
      · intro d
        show ¬((q.from_date ≤ d ∧ d ≤ q.from_date + ((q.to_date - q.from_date) / 2 - 1)) ∧
          (q.from_date + (q.to_date - q.from_date) / 2 ≤ d ∧ d ≤ q.to_date))
        omega
      · intro h2d
        exact absurd (show (q.to_date - q.from_date) / 2 = 0 by omega) hm
  · intro q h c hc
    unfold divideStd divide at hc
    split_ifs at hc with hc1 hc2 hc3 hc4 hc5 hc6
    · obtain ⟨c', _, rfl⟩ := List.mem_map.1 hc; exact ⟨rfl, rfl⟩
    · obtain ⟨c', _, rfl⟩ := List.mem_map.1 hc; exact ⟨rfl, rfl⟩
    · obtain ⟨c', _, rfl⟩ := List.mem_map.1 hc; exact ⟨rfl, rfl⟩
    · exact absurd h hc4.2
    · simp only [ageSplit, List.mem_cons, List.mem_append, List.mem_map,
        List.mem_range', List.mem_singleton] at hc
      rcases hc with (rfl | ⟨a, -, rfl⟩) | rfl | h0
      · exact ⟨rfl, rfl⟩
      · exact ⟨rfl, rfl⟩
      · exact ⟨rfl, rfl⟩
      · simp at h0
    · obtain ⟨c', _, rfl⟩ := List.mem_map.1 hc; exact ⟨rfl, rfl⟩
    · simp at hc

theorem dfac_pos (bd : Bool) (dist : Nat) (s : Stroke) (c : Course) :
    1 ≤ dfac bd dist s c := by
  unfold dfac; split
  · exact le_max_right _ 1
  · exact Nat.le_refl 1

theorem strokeSum_pos (bs bd : Bool) (q : TopTimesRequest) (c : Course) :
    1 ≤ strokeSum bs bd q c := by
  have h1 := dfac_pos bd q.distance q.stroke c
  have h2 := dfac_pos bd q.distance Stroke.freestyle c
  unfold strokeSum strokesOf
  split
  · simp only [IND_STROKES, List.map_cons, List.map_nil, List.sum_cons, List.sum_nil]
    omega
  · simp only [List.map_cons, List.map_nil, List.sum_cons, List.sum_nil]
    omega

theorem csWeight_pos (bc bs bd : Bool) (q : TopTimesRequest) :
    1 ≤ csWeight bc bs bd q := by
  have h1 := strokeSum_pos bs bd q q.course
  have h2 := strokeSum_pos bs bd q Course.scy
  unfold csWeight coursesOf
  split
  · simp only [COURSES, List.map_cons, List.map_nil, List.sum_cons, List.sum_nil]
    omega
  · simp only [List.map_cons, List.map_nil, List.sum_cons, List.sum_nil]
    omega

theorem dateWeight_pos (bdt : Bool) (q : TopTimesRequest) (h : q.from_date ≤ q.to_date) :
    1 ≤ dateWeight bdt q := by
  unfold dateWeight; split
  · omega
  · omega

theorem ageWeight_pos (ba : Bool) (q : TopTimesRequest) : 1 ≤ ageWeight ba q := by
  unfold ageWeight; split <;> omega

theorem zoneWeight_pos (bz : Bool) (q : TopTimesRequest) : 1 ≤ zoneWeight bz q := by
  unfold zoneWeight; split <;> omega

theorem restW_pos (bdt ba bz : Bool) (q : TopTimesRequest) (h : q.from_date ≤ q.to_date) :
    1 ≤ restW bdt ba bz q := by
  have := Nat.mul_le_mul (dateWeight_pos bdt q h)
    (Nat.mul_le_mul (ageWeight_pos ba q) (zoneWeight_pos bz q))
  simpa [restW] using this

theorem weight_pos (bc bs bd bdt ba bz : Bool) (q : TopTimesRequest)
    (h : q.from_date ≤ q.to_date) : 1 ≤ weight bc bs bd bdt ba bz q := by
  have := Nat.mul_le_mul (csWeight_pos bc bs bd q) (restW_pos bdt ba bz q h)
  simpa [weight] using this

theorem csWeight_le_53 (bc bs bd : Bool) (q : TopTimesRequest) :
    csWeight bc bs bd q ≤ 53 := by
  have hd : ∀ s c, dfac bd q.distance s c ≤ max (validCount s c) 1 := by
    intro s c; unfold dfac; split
    · exact Nat.le_refl _
    · exact le_max_right _ 1
  have hs : ∀ c, strokeSum bs bd q c ≤
      ((strokesOf bs q).map fun s => max (validCount s c) 1).sum := by
    intro c; unfold strokeSum; exact List.sum_le_sum fun s _ => hd s c
  have h1 : csWeight bc bs bd q ≤
      ((coursesOf bc q).map fun c =>
        ((strokesOf bs q).map fun s => max (validCount s c) 1).sum).sum := by
    unfold csWeight; exact List.sum_le_sum fun c _ => hs c
  refine le_trans h1 ?_
  unfold coursesOf strokesOf
  split_ifs
  · decide
  · generalize q.course = c
    revert c; decide
  · generalize q.stroke = s
    revert s; decide
  · generalize q.stroke = s
    generalize q.course = c
    revert s c; decide

theorem queueWeight_singleton_le (bc bs bd bdt ba bz : Bool) (q : TopTimesRequest)
    (h : q.from_date ≤ q.to_date) :
    queueWeight bc bs bd bdt ba bz [q] ≤ facetProduct q := by
  have hcs := csWeight_le_53 bc bs bd q
  have hdw : dateWeight bdt q ≤ (q.to_date - q.from_date + 1).toNat := by
    unfold dateWeight; split
    · exact Nat.le_refl _
    · omega
  have haw : ageWeight ba q ≤ 26 := by unfold ageWeight; split <;> omega
  have hzw : zoneWeight bz q ≤ 4 := by unfold zoneWeight; split <;> omega
  have hw : weight bc bs bd bdt ba bz q ≤
      53 * ((q.to_date - q.from_date + 1).toNat * (26 * 4)) :=
    Nat.mul_le_mul hcs (Nat.mul_le_mul hdw (Nat.mul_le_mul haw hzw))
  have hq : queueWeight bc bs bd bdt ba bz [q] =
      2 * weight bc bs bd bdt ba bz q - 1 := by
    simp [queueWeight]
  rw [hq]
  unfold facetProduct
  generalize (q.to_date - q.from_date + 1).toNat = dc at hw ⊢
  omega

theorem sum_map_of_const {α : Type} (l : List α) (f : α → Nat) (c : Nat)
    (h : ∀ a ∈ l, f a = c) : (l.map f).sum = l.length * c := by
  induction l with
  | nil => simp
  | cons x xs ih =>
    simp only [List.map_cons, List.sum_cons, List.length_cons]
    rw [h x (by simp), ih fun a ha => h a (by simp [ha])]
    ring

theorem uniform_queue_bound (n u W : Nat) (hn : 2 ≤ n) (hu : 1 ≤ u)
    (hW : W = n * u) : n * (2 * u - 1) ≤ 2 * W - 2 := by
  subst hW
  rcases Nat.exists_eq_add_of_le hu with ⟨u', rfl⟩
  have e1 : 2 * (1 + u') - 1 = 2 * u' + 1 := by omega
  rw [e1]
  have e2 : n * (2 * u' + 1) = 2 * (n * u') + n := by ring
  have e3 : n * (1 + u') = n + n * u' := by ring
  rw [e2, e3]
  generalize n * u' = v
  omega

theorem validCount_ne_one : ∀ (s : Stroke) (c : Course), validCount s c ≠ 1 := by
  decide

theorem distances_ne_zero : ∀ d ∈ DISTANCES, d ≠ 0 := by decide

theorem dateWeight_eval (bdt : Bool) (x : TopTimesRequest) (hb : bdt = true)
    (_hle : x.from_date ≤ x.to_date) :
    dateWeight bdt x = (x.to_date - x.from_date + 1).toNat := by
  unfold dateWeight
  split
  · rfl
  · rename_i hcond
    have : x.from_date = x.to_date := by
      by_contra hne
      exact hcond ⟨hb, hne⟩
    omega

theorem divide_measure (bc bs bd bdt ba bz : Bool) (q : TopTimesRequest)
    (h : q.from_date ≤ q.to_date) :
    (∀ x ∈ divide q bc bs bd bdt ba bz,
      weight bc bs bd bdt ba bz x < weight bc bs bd bdt ba bz q ∧
        x.from_date ≤ x.to_date) ∧
    (divide q bc bs bd bdt ba bz ≠ [] →
      queueWeight bc bs bd bdt ba bz (divide q bc bs bd bdt ba bz) ≤
        2 * weight bc bs bd bdt ba bz q - 2) := by
  have hR : 1 ≤ restW bdt ba bz q := restW_pos bdt ba bz q h
  unfold divide
  split_ifs with h1 h2 h3 h4 h5 h6
  -- course axis
  · have hQ : weight bc bs bd bdt ba bz q =
        (strokeSum bs bd q Course.scy + (strokeSum bs bd q Course.scm +
          (strokeSum bs bd q Course.lcm + 0))) * restW bdt ba bz q := by
      unfold weight csWeight coursesOf
      rw [if_pos h1]
      simp only [COURSES, List.map_cons, List.map_nil, List.sum_cons, List.sum_nil]
    have hch : ∀ c : Course, ¬(bc = true ∧ c = Course.all) →
        weight bc bs bd bdt ba bz { q with course := c } =
          strokeSum bs bd q c * restW bdt ba bz q := by
      intro c hc
      unfold weight csWeight coursesOf
      rw [if_neg hc]
      simp only [List.map_cons, List.map_nil, List.sum_cons, List.sum_nil, Nat.add_zero]
      rfl
    have hp1 := strokeSum_pos bs bd q Course.scy
    have hp2 := strokeSum_pos bs bd q Course.scm
    have hp3 := strokeSum_pos bs bd q Course.lcm
    constructor
    · intro x hx
      simp only [List.mem_map] at hx
      obtain ⟨c, hcmem, rfl⟩ := hx
      have hcne : ¬(bc = true ∧ c = Course.all) := by
        rintro ⟨-, rfl⟩
        exact absurd hcmem (by decide)
      refine ⟨?_, h⟩
      rw [hch c hcne, hQ]
      apply mul_lt_mul_of_pos_right _ (by omega)
      simp only [COURSES, List.mem_cons, List.not_mem_nil, or_false] at hcmem
      rcases hcmem with rfl | rfl | rfl <;> omega
    · intro _
      unfold queueWeight
      simp only [COURSES, List.map_cons, List.map_nil, List.sum_cons, List.sum_nil]
      rw [hch Course.scy (by rintro ⟨-, hcc⟩; exact absurd hcc (by decide)),
        hch Course.scm (by rintro ⟨-, hcc⟩; exact absurd hcc (by decide)),
        hch Course.lcm (by rintro ⟨-, hcc⟩; exact absurd hcc (by decide)), hQ]
      have e : (strokeSum bs bd q Course.scy + (strokeSum bs bd q Course.scm +
          (strokeSum bs bd q Course.lcm + 0))) * restW bdt ba bz q =
          strokeSum bs bd q Course.scy * restW bdt ba bz q +
          (strokeSum bs bd q Course.scm * restW bdt ba bz q +
            strokeSum bs bd q Course.lcm * restW bdt ba bz q) := by ring
      rw [e]
      have hA : 1 ≤ strokeSum bs bd q Course.scy * restW bdt ba bz q := by
        have := Nat.mul_le_mul hp1 hR; omega
      have hB : 1 ≤ strokeSum bs bd q Course.scm * restW bdt ba bz q := by
        have := Nat.mul_le_mul hp2 hR; omega
      have hC : 1 ≤ strokeSum bs bd q Course.lcm * restW bdt ba bz q := by
        have := Nat.mul_le_mul hp3 hR; omega
      generalize strokeSum bs bd q Course.scy * restW bdt ba bz q = A at hA ⊢
      generalize strokeSum bs bd q Course.scm * restW bdt ba bz q = B at hB ⊢
      generalize strokeSum bs bd q Course.lcm * restW bdt ba bz q = C at hC ⊢
      omega
  -- stroke axis
  · have hQ : weight bc bs bd bdt ba bz q =
        (dfac bd q.distance Stroke.freestyle q.course +
          (dfac bd q.distance Stroke.backstroke q.course +
          (dfac bd q.distance Stroke.breaststroke q.course +
          (dfac bd q.distance Stroke.butterfly q.course +
          (dfac bd q.distance Stroke.individualMedley q.course + 0))))) *
          restW bdt ba bz q := by
      unfold weight csWeight coursesOf
      rw [if_neg h1]
      simp only [List.map_cons, List.map_nil, List.sum_cons, List.sum_nil, Nat.add_zero]
      unfold strokeSum strokesOf
      rw [if_pos h2]
      simp only [IND_STROKES, List.map_cons, List.map_nil, List.sum_cons, List.sum_nil]
      ring
    have hch : ∀ s : Stroke, ¬(bs = true ∧ s = Stroke.all) →
        weight bc bs bd bdt ba bz { q with stroke := s } =
          dfac bd q.distance s q.course * restW bdt ba bz q := by
      intro s hs
      unfold weight csWeight coursesOf
      rw [if_neg h1]
      simp only [List.map_cons, List.map_nil, List.sum_cons, List.sum_nil, Nat.add_zero]
      unfold strokeSum strokesOf
      rw [if_neg hs]
      simp only [List.map_cons, List.map_nil, List.sum_cons, List.sum_nil, Nat.add_zero]
      rfl
    have hp1 := dfac_pos bd q.distance Stroke.freestyle q.course
    have hp2 := dfac_pos bd q.distance Stroke.backstroke q.course
    have hp3 := dfac_pos bd q.distance Stroke.breaststroke q.course
    have hp4 := dfac_pos bd q.distance Stroke.butterfly q.course
    have hp5 := dfac_pos bd q.distance Stroke.individualMedley q.course
    constructor
    · intro x hx
      simp only [List.mem_map] at hx
      obtain ⟨s, hsmem, rfl⟩ := hx
      have hsne : ¬(bs = true ∧ s = Stroke.all) := by
        rintro ⟨-, rfl⟩
        exact absurd hsmem (by decide)
      refine ⟨?_, h⟩
      rw [hch s hsne, hQ]
      apply mul_lt_mul_of_pos_right _ (by omega)
      simp only [IND_STROKES, List.mem_cons, List.not_mem_nil, or_false] at hsmem
      rcases hsmem with rfl | rfl | rfl | rfl | rfl <;> omega
    · intro _
      unfold queueWeight
      simp only [IND_STROKES, List.map_cons, List.map_nil, List.sum_cons, List.sum_nil]
      rw [hch Stroke.freestyle (by rintro ⟨-, hss⟩; exact absurd hss (by decide)),
        hch Stroke.backstroke (by rintro ⟨-, hss⟩; exact absurd hss (by decide)),
        hch Stroke.breaststroke (by rintro ⟨-, hss⟩; exact absurd hss (by decide)),
        hch Stroke.butterfly (by rintro ⟨-, hss⟩; exact absurd hss (by decide)),
        hch Stroke.individualMedley (by rintro ⟨-, hss⟩; exact absurd hss (by decide)), hQ]
      have e : (dfac bd q.distance Stroke.freestyle q.course +
          (dfac bd q.distance Stroke.backstroke q.course +
          (dfac bd q.distance Stroke.breaststroke q.course +
          (dfac bd q.distance Stroke.butterfly q.course +
          (dfac bd q.distance Stroke.individualMedley q.course + 0))))) *
          restW bdt ba bz q =
          dfac bd q.distance Stroke.freestyle q.course * restW bdt ba bz q +
          (dfac bd q.distance Stroke.backstroke q.course * restW bdt ba bz q +
          (dfac bd q.distance Stroke.breaststroke q.course * restW bdt ba bz q +
          (dfac bd q.distance Stroke.butterfly q.course * restW bdt ba bz q +
            dfac bd q.distance Stroke.individualMedley q.course * restW bdt ba bz q))) := by
        ring
      rw [e]
      have hA : 1 ≤ dfac bd q.distance Stroke.freestyle q.course * restW bdt ba bz q := by
        have := Nat.mul_le_mul hp1 hR; omega
      have hB : 1 ≤ dfac bd q.distance Stroke.backstroke q.course * restW bdt ba bz q := by
        have := Nat.mul_le_mul hp2 hR; omega
      have hC : 1 ≤ dfac bd q.distance Stroke.breaststroke q.course * restW bdt ba bz q := by
        have := Nat.mul_le_mul hp3 hR; omega
      have hD : 1 ≤ dfac bd q.distance Stroke.butterfly q.course * restW bdt ba bz q := by
        have := Nat.mul_le_mul hp4 hR; omega
      have hE : 1 ≤ dfac bd q.distance Stroke.individualMedley q.course * restW bdt ba bz q := by
        have := Nat.mul_le_mul hp5 hR; omega
      generalize dfac bd q.distance Stroke.freestyle q.course * restW bdt ba bz q = A at hA ⊢
      generalize dfac bd q.distance Stroke.backstroke q.course * restW bdt ba bz q = B at hB ⊢
      generalize dfac bd q.distance Stroke.breaststroke q.course * restW bdt ba bz q = C at hC ⊢
      generalize dfac bd q.distance Stroke.butterfly q.course * restW bdt ba bz q = D at hD ⊢
      generalize dfac bd q.distance Stroke.individualMedley q.course * restW bdt ba bz q = E at hE ⊢
      omega
  -- distance axis
  · have hk : validCount q.stroke q.course =
        (DISTANCES.filter fun d => (d, q.stroke, q.course) ∈ VALID_EVENTS).length := rfl
    have hQ : weight bc bs bd bdt ba bz q =
        max (validCount q.stroke q.course) 1 * restW bdt ba bz q := by
      unfold weight csWeight coursesOf
      rw [if_neg h1]
      simp only [List.map_cons, List.map_nil, List.sum_cons, List.sum_nil, Nat.add_zero]
      unfold strokeSum strokesOf
      rw [if_neg h2]
      simp only [List.map_cons, List.map_nil, List.sum_cons, List.sum_nil, Nat.add_zero]
      unfold dfac
      rw [if_pos h3]
    have hch : ∀ d ∈ DISTANCES.filter fun d => (d, q.stroke, q.course) ∈ VALID_EVENTS,
        weight bc bs bd bdt ba bz { q with distance := d } = restW bdt ba bz q := by
      intro d hd
      have hd0 : d ≠ 0 := distances_ne_zero d (List.mem_of_mem_filter hd)
      unfold weight csWeight coursesOf
      rw [if_neg h1]
      simp only [List.map_cons, List.map_nil, List.sum_cons, List.sum_nil, Nat.add_zero]
      unfold strokeSum strokesOf
      rw [if_neg h2]
      simp only [List.map_cons, List.map_nil, List.sum_cons, List.sum_nil, Nat.add_zero]
      unfold dfac
      rw [if_neg (by rintro ⟨-, hdd⟩; exact hd0 hdd), one_mul]
      rfl
    constructor
    · intro x hx
      simp only [List.mem_map] at hx
      obtain ⟨d, hd, rfl⟩ := hx
      have hk1 : 1 ≤ validCount q.stroke q.course := by
        rw [hk]
        exact List.length_pos.2 (List.ne_nil_of_mem hd)
      have hk2 : 2 ≤ validCount q.stroke q.course := by
        have := validCount_ne_one q.stroke q.course
        omega
      refine ⟨?_, h⟩
      rw [hch d hd, hQ]
      exact (lt_mul_iff_one_lt_left (by omega)).2 (by omega)
    · intro hne
      have hne' : (DISTANCES.filter fun d => (d, q.stroke, q.course) ∈ VALID_EVENTS) ≠ [] := by
        intro hnil
        exact hne (by rw [hnil]; rfl)
      have hk1 : 1 ≤ validCount q.stroke q.course := by
        rw [hk]
        exact List.length_pos.2 hne'
      have hk2 : 2 ≤ validCount q.stroke q.course := by
        have := validCount_ne_one q.stroke q.course
        omega
      unfold queueWeight
      rw [List.map_map]
      rw [sum_map_of_const _ _ (2 * restW bdt ba bz q - 1)
        (fun d hd => by simp only [Function.comp_apply]; rw [hch d hd])]
      rw [← hk, hQ, max_eq_left hk1]
      exact uniform_queue_bound _ _ _ hk2 hR rfl
  -- date axis
  · have hlt : q.from_date < q.to_date := by
      rcases h4 with ⟨-, hne⟩
      omega
    have hb : bdt = true := h4.1
    have hu : 1 ≤ csWeight bc bs bd q * (ageWeight ba q * zoneWeight bz q) := by
      have := Nat.mul_le_mul (csWeight_pos bc bs bd q)
        (Nat.mul_le_mul (ageWeight_pos ba q) (zoneWeight_pos bz q))
      omega
    have hwTo : ∀ b : Int, weight bc bs bd bdt ba bz { q with to_date := b } =
        dateWeight bdt { q with to_date := b } *
          (csWeight bc bs bd q * (ageWeight ba q * zoneWeight bz q)) := by
      intro b
      show csWeight bc bs bd q * (dateWeight bdt { q with to_date := b } *
        (ageWeight ba q * zoneWeight bz q)) = _
      ring
    have hwFrom : ∀ a : Int, weight bc bs bd bdt ba bz { q with from_date := a } =
        dateWeight bdt { q with from_date := a } *
          (csWeight bc bs bd q * (ageWeight ba q * zoneWeight bz q)) := by
      intro a
      show csWeight bc bs bd q * (dateWeight bdt { q with from_date := a } *
        (ageWeight ba q * zoneWeight bz q)) = _
      ring
    have hQ : weight bc bs bd bdt ba bz q =
        dateWeight bdt q * (csWeight bc bs bd q * (ageWeight ba q * zoneWeight bz q)) := by
      show csWeight bc bs bd q * (dateWeight bdt q * (ageWeight ba q * zoneWeight bz q)) = _
      ring
    have hdwq : dateWeight bdt q = (q.to_date - q.from_date + 1).toNat :=
      dateWeight_eval bdt q hb h
    unfold dateSplit
    have htd : Int.tdiv (q.to_date - q.from_date) 2 = (q.to_date - q.from_date) / 2 :=
      Int.tdiv_eq_ediv (by omega) (by norm_num)
    rw [htd]
    by_cases hm : (q.to_date - q.from_date) / 2 = 0
    · rw [if_pos hm]
      have h2d : q.to_date = q.from_date + 1 := by omega
      have hdl : dateWeight bdt { q with to_date := q.from_date } = 1 := by
        rw [dateWeight_eval bdt _ hb (by show q.from_date ≤ q.from_date; omega)]
        show (q.from_date - q.from_date + 1).toNat = 1
        omega
      have hdr : dateWeight bdt { q with from_date := q.to_date } = 1 := by
        rw [dateWeight_eval bdt _ hb (by show q.to_date ≤ q.to_date; omega)]
        show (q.to_date - q.to_date + 1).toNat = 1
        omega
      have hdq : dateWeight bdt q = 2 := by rw [hdwq]; omega
      constructor
      · intro x hx
        simp only [List.mem_cons, List.not_mem_nil, or_false] at hx
        rcases hx with rfl | rfl
        · refine ⟨?_, show q.from_date ≤ q.from_date by omega⟩
          rw [hwTo, hQ, hdl, hdq, one_mul]
          exact (lt_mul_iff_one_lt_left (by omega)).2 (by omega)
        · refine ⟨?_, show q.to_date ≤ q.to_date by omega⟩
          rw [hwFrom, hQ, hdr, hdq, one_mul]
          exact (lt_mul_iff_one_lt_left (by omega)).2 (by omega)
      · intro _
        unfold queueWeight
        simp only [List.map_cons, List.map_nil, List.sum_cons, List.sum_nil]
        rw [hwTo, hwFrom, hdl, hdr, hQ, hdq]
        generalize csWeight bc bs bd q * (ageWeight ba q * zoneWeight bz q) = u at hu ⊢
        omega
    · rw [if_neg hm]
      have hmid1 : 1 ≤ (q.to_date - q.from_date) / 2 := by omega
      have hmid2 : (q.to_date - q.from_date) / 2 ≤ q.to_date - q.from_date - 1 := by omega
      rw [if_neg (show ¬(q.to_date < q.from_date + (q.to_date - q.from_date) / 2) by omega)]
      have hdl : dateWeight bdt
          { q with to_date := q.from_date + ((q.to_date - q.from_date) / 2 - 1) } =
          ((q.to_date - q.from_date) / 2).toNat := by
        rw [dateWeight_eval bdt _ hb
          (by show q.from_date ≤ q.from_date + ((q.to_date - q.from_date) / 2 - 1); omega)]
        show (q.from_date + ((q.to_date - q.from_date) / 2 - 1) - q.from_date + 1).toNat = _
        omega
      have hdr : dateWeight bdt
          { q with from_date := q.from_date + (q.to_date - q.from_date) / 2 } =
          (q.to_date - q.from_date - (q.to_date - q.from_date) / 2 + 1).toNat := by
        rw [dateWeight_eval bdt _ hb
          (by show q.from_date + (q.to_date - q.from_date) / 2 ≤ q.to_date; omega)]
        show (q.to_date - (q.from_date + (q.to_date - q.from_date) / 2) + 1).toNat = _
        omega
      constructor
      · intro x hx
        simp only [List.mem_cons, List.not_mem_nil, or_false] at hx
        rcases hx with rfl | rfl
        · refine ⟨?_,
            show q.from_date ≤ q.from_date + ((q.to_date - q.from_date) / 2 - 1) by omega⟩
          rw [hwTo, hQ, hdl, hdwq]
          exact mul_lt_mul_of_pos_right (by omega) (by omega)
        · refine ⟨?_,
            show q.from_date + (q.to_date - q.from_date) / 2 ≤ q.to_date by omega⟩
          rw [hwFrom, hQ, hdr, hdwq]
          exact mul_lt_mul_of_pos_right (by omega) (by omega)
      · intro _
        unfold queueWeight
        simp only [List.map_cons, List.map_nil, List.sum_cons, List.sum_nil]
        rw [hwTo, hwFrom, hdl, hdr, hQ, hdwq]
        have hsum : ((q.to_date - q.from_date) / 2).toNat +
            (q.to_date - q.from_date - (q.to_date - q.from_date) / 2 + 1).toNat =
            (q.to_date - q.from_date + 1).toNat := by omega
        have e : (q.to_date - q.from_date + 1).toNat *
            (csWeight bc bs bd q * (ageWeight ba q * zoneWeight bz q)) =
            ((q.to_date - q.from_date) / 2).toNat *
              (csWeight bc bs bd q * (ageWeight ba q * zoneWeight bz q)) +
            (q.to_date - q.from_date - (q.to_date - q.from_date) / 2 + 1).toNat *
              (csWeight bc bs bd q * (ageWeight ba q * zoneWeight bz q)) := by
          rw [← Nat.add_mul, hsum]
        rw [e]
        have hA : 1 ≤ ((q.to_date - q.from_date) / 2).toNat *
            (csWeight bc bs bd q * (ageWeight ba q * zoneWeight bz q)) := by
          have := Nat.mul_le_mul (show 1 ≤ ((q.to_date - q.from_date) / 2).toNat by omega) hu
          omega
        have hB : 1 ≤ (q.to_date - q.from_date - (q.to_date - q.from_date) / 2 + 1).toNat *
            (csWeight bc bs bd q * (ageWeight ba q * zoneWeight bz q)) := by
          have := Nat.mul_le_mul
            (show 1 ≤ (q.to_date - q.from_date - (q.to_date - q.from_date) / 2 + 1).toNat by omega)
            hu
          omega
        generalize ((q.to_date - q.from_date) / 2).toNat *
          (csWeight bc bs bd q * (ageWeight ba q * zoneWeight bz q)) = A at hA ⊢
        generalize (q.to_date - q.from_date - (q.to_date - q.from_date) / 2 + 1).toNat *
          (csWeight bc bs bd q * (ageWeight ba q * zoneWeight bz q)) = B at hB ⊢
        omega
  -- age axis
  · have hu : 1 ≤ csWeight bc bs bd q * (dateWeight bdt q * zoneWeight bz q) := by
      have := Nat.mul_le_mul (csWeight_pos bc bs bd q)
        (Nat.mul_le_mul (dateWeight_pos bdt q h) (zoneWeight_pos bz q))
      omega
    have hQ : weight bc bs bd bdt ba bz q =
        26 * (csWeight bc bs bd q * (dateWeight bdt q * zoneWeight bz q)) := by
      unfold weight restW ageWeight
      rw [if_pos h5]
      ring
    have hchSS : ∀ a b : Nat,
        weight bc bs bd bdt ba bz { q with start_age := some a, end_age := some b } =
          csWeight bc bs bd q * (dateWeight bdt q * zoneWeight bz q) := by
      intro a b
      unfold weight restW ageWeight
      rw [if_neg (by rintro ⟨-, -, hcc⟩; exact Option.some_ne_none b hcc)]
      show csWeight bc bs bd q * (dateWeight bdt q * (1 * zoneWeight bz q)) = _
      ring
    have hchSN :
        weight bc bs bd bdt ba bz { q with start_age := some 30, end_age := none } =
          csWeight bc bs bd q * (dateWeight bdt q * zoneWeight bz q) := by
      unfold weight restW ageWeight
      rw [if_neg (by rintro ⟨-, hc1, -⟩; exact absurd hc1 (by simp))]
      show csWeight bc bs bd q * (dateWeight bdt q * (1 * zoneWeight bz q)) = _
      ring
    constructor
    · intro x hx
      simp only [ageSplit, List.mem_cons, List.mem_append, List.mem_map,
        List.mem_range', List.mem_singleton] at hx
      have hlt : csWeight bc bs bd q * (dateWeight bdt q * zoneWeight bz q) <
          weight bc bs bd bdt ba bz q := by
        rw [hQ]
        exact (lt_mul_iff_one_lt_left (by omega)).2 (by omega)
      rcases hx with (rfl | ⟨a, -, rfl⟩) | rfl | h0
      · exact ⟨by rw [hchSS]; exact hlt, h⟩
      · exact ⟨by rw [hchSS]; exact hlt, h⟩
      · exact ⟨by rw [hchSN]; exact hlt, h⟩
      · simp at h0
    · intro _
      unfold queueWeight ageSplit
      simp only [List.map_cons, List.map_append, List.sum_cons, List.sum_append,
        List.map_map, List.sum_nil, List.map_nil]
      rw [hchSS 0 5, hchSN]
      rw [sum_map_of_const _ _
        (2 * (csWeight bc bs bd q * (dateWeight bdt q * zoneWeight bz q)) - 1)
        (fun i hi => by simp only [Function.comp_apply]; rw [hchSS i i])]
      rw [List.length_range', hQ]
      generalize csWeight bc bs bd q * (dateWeight bdt q * zoneWeight bz q) = u at hu ⊢
      omega
  -- zone axis
  · have hu : 1 ≤ csWeight bc bs bd q * (dateWeight bdt q * ageWeight ba q) := by
      have := Nat.mul_le_mul (csWeight_pos bc bs bd q)
        (Nat.mul_le_mul (dateWeight_pos bdt q h) (ageWeight_pos ba q))
      omega
    have hQ : weight bc bs bd bdt ba bz q =
        4 * (csWeight bc bs bd q * (dateWeight bdt q * ageWeight ba q)) := by
      unfold weight restW zoneWeight
      rw [if_pos h6]
      ring
    have hch : ∀ z : Zone, ¬(bz = true ∧ z = Zone.all) →
        weight bc bs bd bdt ba bz { q with zone := z } =
          csWeight bc bs bd q * (dateWeight bdt q * ageWeight ba q) := by
      intro z hz
      unfold weight restW zoneWeight
      rw [if_neg hz]
      show csWeight bc bs bd q * (dateWeight bdt q * (ageWeight ba q * 1)) = _
      ring
    constructor
    · intro x hx
      simp only [List.mem_map] at hx
      obtain ⟨z, hzmem, rfl⟩ := hx
      have hzne : ¬(bz = true ∧ z = Zone.all) := by
        rintro ⟨-, rfl⟩
        exact absurd hzmem (by decide)
      refine ⟨?_, h⟩
      rw [hch z hzne, hQ]
      exact (lt_mul_iff_one_lt_left (by omega)).2 (by omega)
    · intro _
      unfold queueWeight
      simp only [ZONES, List.map_cons, List.map_nil, List.sum_cons, List.sum_nil]
      rw [hch Zone.central (by rintro ⟨-, hzz⟩; exact absurd hzz (by decide)),
        hch Zone.eastern (by rintro ⟨-, hzz⟩; exact absurd hzz (by decide)),
        hch Zone.southern (by rintro ⟨-, hzz⟩; exact absurd hzz (by decide)),
        hch Zone.western (by rintro ⟨-, hzz⟩; exact absurd hzz (by decide)), hQ]
      generalize csWeight bc bs bd q * (dateWeight bdt q * ageWeight ba q) = u at hu ⊢
      omega
  -- leaf
  · exact ⟨by simp, by simp⟩

theorem queueWeight_cons (bc bs bd bdt ba bz : Bool) (x : TopTimesRequest)
    (l : List TopTimesRequest) :
    queueWeight bc bs bd bdt ba bz (x :: l) =
      (2 * weight bc bs bd bdt ba bz x - 1) + queueWeight bc bs bd bdt ba bz l := by
  simp [queueWeight]

theorem queueWeight_append (bc bs bd bdt ba bz : Bool)
    (l1 l2 : List TopTimesRequest) :
    queueWeight bc bs bd bdt ba bz (l1 ++ l2) =
      queueWeight bc bs bd bdt ba bz l1 + queueWeight bc bs bd bdt ba bz l2 := by
  simp [queueWeight]

theorem atomizeGo_total (bc bs bd bdt ba bz : Bool) :
    ∀ (fuel : Nat) (queue out : List TopTimesRequest),
      (∀ x ∈ queue, x.from_date ≤ x.to_date) →
      queueWeight bc bs bd bdt ba bz queue ≤ fuel →
      (atomizeGo bc bs bd bdt ba bz fuel queue out).isSome = true := by
  intro fuel
  induction fuel with
  | zero =>
    intro queue out hinv hw
    cases queue with
    | nil => rfl
    | cons x rest =>
      exfalso
      have hx := hinv x (by simp)
      have hpos := weight_pos bc bs bd bdt ba bz x hx
      rw [queueWeight_cons] at hw
      omega
  | succ n ih =>
    intro queue out hinv hw
    cases queue with
    | nil => rfl
    | cons x rest =>
      have hx := hinv x (by simp)
      have hpos := weight_pos bc bs bd bdt ba bz x hx
      have hstep : atomizeGo bc bs bd bdt ba bz (n + 1) (x :: rest) out =
          if divide x bc bs bd bdt ba bz = [] then
            atomizeGo bc bs bd bdt ba bz n rest (out ++ [x])
          else
            atomizeGo bc bs bd bdt ba bz n (rest ++ divide x bc bs bd bdt ba bz) out := rfl
      rw [hstep]
      rw [queueWeight_cons] at hw
      by_cases hd : divide x bc bs bd bdt ba bz = []
      · rw [if_pos hd]
        apply ih
        · intro y hy
          exact hinv y (by simp [hy])
        · omega
      · rw [if_neg hd]
        apply ih
        · intro y hy
          rcases List.mem_append.1 hy with hy | hy
          · exact hinv y (by simp [hy])
          · exact ((divide_measure bc bs bd bdt ba bz x hx).1 y hy).2
        · rw [queueWeight_append]
          have hsum := (divide_measure bc bs bd bdt ba bz x hx).2 hd
          omega

/-- C7 counterexample: on a request whose date range is reversed by two days,
`divide` returns the parent itself unchanged as its first child, so a divide
call fails to strictly reduce any facet's remaining cardinality and the
work-list loop re-enqueues the same request forever (shown here for a
40-pop fuel budget). -/
theorem c7_counterexample :
    divide exRev2Req true true true true true false =
      [exRev2Req, { exRev2Req with from_date := exRev2Req.to_date }] ∧
    (atomizeGo true true true true true false 40 [exRev2Req] []).isSome = false := by
  decide

/-- C7 (amended): for every query whose date range is well ordered
(`date-from <= date-to`), every child of a non-empty `divide` call strictly
reduces the partition measure (which multiplies the remaining per-facet
cardinalities) and keeps the date range well ordered, and the `atomize`
work-list loop terminates within `facetProduct q` pops, the product of the
facets' concrete cardinalities (3 courses x 5 strokes x 9 distances x 26 age
bands x 4 zones x days in the window).  For a reversed date range `divide` can
return the parent unchanged and `atomize` diverges. -/
theorem c7_termination_bound :
    ∀ (q : TopTimesRequest) (bc bs bd bdt ba bz : Bool), q.from_date ≤ q.to_date →
      (∀ x ∈ divide q bc bs bd bdt ba bz,
        weight bc bs bd bdt ba bz x < weight bc bs bd bdt ba bz q ∧
          x.from_date ≤ x.to_date) ∧
      (atomizeGo bc bs bd bdt ba bz (facetProduct q) [q] []).isSome = true := by
  intro q bc bs bd bdt ba bz h
  refine ⟨(divide_measure bc bs bd bdt ba bz q h).1, ?_⟩
  apply atomizeGo_total
  · intro x hx
    have : x = q := by simpa using hx
    rw [this]
    exact h
  · exact queueWeight_singleton_le bc bs bd bdt ba bz q h

/-- C7 amended witness: the termination bound evaluated on a concrete one-day
request with the default age range. -/
theorem c7_termination_bound_witness :
    (∀ x ∈ divide exAgeReq true true true true true false,
      weight true true true true true false x <
        weight true true true true true false exAgeReq ∧
        x.from_date ≤ x.to_date) ∧
    (atomizeGo true true true true true false (facetProduct exAgeReq)
      [exAgeReq] []).isSome = true :=
  c7_termination_bound exAgeReq true true true true true false (by decide)

theorem valid_course_cases : ∀ x ∈ VALID_EVENTS,
    x.2.2 = Course.scy ∨ x.2.2 = Course.scm ∨ x.2.2 = Course.lcm := by decide

theorem valid_stroke_cases : ∀ x ∈ VALID_EVENTS,
    x.2.1 = Stroke.freestyle ∨ x.2.1 = Stroke.backstroke ∨
    x.2.1 = Stroke.breaststroke ∨ x.2.1 = Stroke.butterfly ∨
    x.2.1 = Stroke.individualMedley := by decide

theorem valid_dist_mem : ∀ x ∈ VALID_EVENTS, x.1 ∈ DISTANCES := by decide

theorem divideStd_spec (q : TopTimesRequest) (h : q.from_date ≤ q.to_date) :
    (divideStd q = [] ∨ 2 ≤ (divideStd q).length) ∧
    (∀ c ∈ divideStd q, c.from_date ≤ c.to_date) ∧
    (∀ c ∈ divideStd q, ∀ r : RecordKey, inSpace c r → inSpace q r) ∧
    (divideStd q ≠ [] → ∀ r : RecordKey, validRec r → inSpace q r →
      ∃ c ∈ divideStd q, inSpace c r) ∧
    (divideStd q).Pairwise spacesDisjoint := by
  unfold divideStd divide
  split_ifs with h1 h2 h3 h4 h5 h6
  -- course axis
  · refine ⟨Or.inr (by simp [COURSES]), ?_, ?_, ?_, ?_⟩
    · intro c hc
      obtain ⟨c', -, rfl⟩ := List.mem_map.1 hc
      exact h
    · intro c hc r hin
      obtain ⟨c', -, rfl⟩ := List.mem_map.1 hc
      simp only [inSpace] at hin ⊢
      obtain ⟨hg, -, hs, hd, hdate, hage, hz⟩ := hin
      exact ⟨hg, Or.inl h1.2, hs, hd, hdate, hage, hz⟩
    · intro _ r hv hin
      have hcc := valid_course_cases _ hv
      simp only [inSpace] at hin
      obtain ⟨hg, -, hs, hd, hdate, hage, hz⟩ := hin
      rcases hcc with hcc | hcc | hcc
      · exact ⟨{ q with course := Course.scy }, by simp [COURSES],
          by simp only [inSpace]; exact ⟨hg, Or.inr hcc.symm, hs, hd, hdate, hage, hz⟩⟩
      · exact ⟨{ q with course := Course.scm }, by simp [COURSES],
          by simp only [inSpace]; exact ⟨hg, Or.inr hcc.symm, hs, hd, hdate, hage, hz⟩⟩
      · exact ⟨{ q with course := Course.lcm }, by simp [COURSES],
          by simp only [inSpace]; exact ⟨hg, Or.inr hcc.symm, hs, hd, hdate, hage, hz⟩⟩
    · apply List.Nodup.pairwise_of_forall_ne
      · apply List.Nodup.map_on
        · intro x _ y _ hxy
          simpa [TopTimesRequest.mk.injEq] using hxy
        · decide
      · intro a ha b hb hab r hv hcon
        obtain ⟨hia, hib⟩ := hcon
        obtain ⟨ca, hca, rfl⟩ := List.mem_map.1 ha
        obtain ⟨cb, hcb, rfl⟩ := List.mem_map.1 hb
        simp only [inSpace] at hia hib
        obtain ⟨-, hac, -, -, -, -, -⟩ := hia
        obtain ⟨-, hbc, -, -, -, -, -⟩ := hib
        have hcane : ca ≠ Course.all := by
          rintro rfl; exact absurd hca (by decide)
        have hcbne : cb ≠ Course.all := by
          rintro rfl; exact absurd hcb (by decide)
        rcases hac with hx | hx
        · exact hcane hx
        · rcases hbc with hy | hy
          · exact hcbne hy
          · exact hab (by rw [show ca = cb from hx.trans hy.symm])
  -- stroke axis
  · refine ⟨Or.inr (by simp [IND_STROKES]), ?_, ?_, ?_, ?_⟩
    · intro c hc
      obtain ⟨s', -, rfl⟩ := List.mem_map.1 hc
      exact h
    · intro c hc r hin
      obtain ⟨s', -, rfl⟩ := List.mem_map.1 hc
      simp only [inSpace] at hin ⊢
      obtain ⟨hg, hc', -, hd, hdate, hage, hz⟩ := hin
      exact ⟨hg, hc', Or.inl h2.2, hd, hdate, hage, hz⟩
    · intro _ r hv hin
      have hss := valid_stroke_cases _ hv
      simp only [inSpace] at hin
      obtain ⟨hg, hc', -, hd, hdate, hage, hz⟩ := hin
      rcases hss with hss | hss | hss | hss | hss
      · exact ⟨{ q with stroke := Stroke.freestyle }, by simp [IND_STROKES],
          by simp only [inSpace]; exact ⟨hg, hc', Or.inr hss.symm, hd, hdate, hage, hz⟩⟩
      · exact ⟨{ q with stroke := Stroke.backstroke }, by simp [IND_STROKES],
          by simp only [inSpace]; exact ⟨hg, hc', Or.inr hss.symm, hd, hdate, hage, hz⟩⟩
      · exact ⟨{ q with stroke := Stroke.breaststroke }, by simp [IND_STROKES],
          by simp only [inSpace]; exact ⟨hg, hc', Or.inr hss.symm, hd, hdate, hage, hz⟩⟩
      · exact ⟨{ q with stroke := Stroke.butterfly }, by simp [IND_STROKES],
          by simp only [inSpace]; exact ⟨hg, hc', Or.inr hss.symm, hd, hdate, hage, hz⟩⟩
      · exact ⟨{ q with stroke := Stroke.individualMedley }, by simp [IND_STROKES],
          by simp only [inSpace]; exact ⟨hg, hc', Or.inr hss.symm, hd, hdate, hage, hz⟩⟩
    · apply List.Nodup.pairwise_of_forall_ne
      · apply List.Nodup.map_on
        · intro x _ y _ hxy
          simpa [TopTimesRequest.mk.injEq] using hxy
        · decide
      · intro a ha b hb hab r hv hcon
        obtain ⟨hia, hib⟩ := hcon
        obtain ⟨sa, hsa, rfl⟩ := List.mem_map.1 ha
        obtain ⟨sb, hsb, rfl⟩ := List.mem_map.1 hb
        simp only [inSpace] at hia hib
        obtain ⟨-, -, has, -, -, -, -⟩ := hia
        obtain ⟨-, -, hbs, -, -, -, -⟩ := hib
        have hsane : sa ≠ Stroke.all := by
          rintro rfl; exact absurd hsa (by decide)
        have hsbne : sb ≠ Stroke.all := by
          rintro rfl; exact absurd hsb (by decide)
        rcases has with hx | hx
        · exact hsane hx
        · rcases hbs with hy | hy
          · exact hsbne hy
          · exact hab (by rw [show sa = sb from hx.trans hy.symm])
  -- distance axis
  · have hqc : q.course ≠ Course.all := fun hh => h1 ⟨rfl, hh⟩
    have hqs : q.stroke ≠ Stroke.all := fun hh => h2 ⟨rfl, hh⟩
    refine ⟨?_, ?_, ?_, ?_, ?_⟩
    · by_cases hk :
        (DISTANCES.filter fun d => (d, q.stroke, q.course) ∈ VALID_EVENTS) = []
      · exact Or.inl (by rw [hk]; rfl)
      · refine Or.inr ?_
        have hlen : (DISTANCES.filter
            fun d => (d, q.stroke, q.course) ∈ VALID_EVENTS).length =
            validCount q.stroke q.course := rfl
        have h1' : 1 ≤ validCount q.stroke q.course := by
          rw [← hlen]
          exact List.length_pos.2 hk
        have hne1 := validCount_ne_one q.stroke q.course
        rw [List.length_map, hlen]
        omega
    · intro c hc
      obtain ⟨d, -, rfl⟩ := List.mem_map.1 hc
      exact h
    · intro c hc r hin
      obtain ⟨d, -, rfl⟩ := List.mem_map.1 hc
      simp only [inSpace] at hin ⊢
      obtain ⟨hg, hc', hs, -, hdate, hage, hz⟩ := hin
      exact ⟨hg, hc', hs, Or.inl h3.2, hdate, hage, hz⟩
    · intro _ r hv hin
      simp only [inSpace] at hin
      obtain ⟨hg, hc', hs, -, hdate, hage, hz⟩ := hin
      have hqc' : q.course = r.course := by
        rcases hc' with hx | hx
        · exact absurd hx hqc
        · exact hx
      have hqs' : q.stroke = r.stroke := by
        rcases hs with hx | hx
        · exact absurd hx hqs
        · exact hx
      refine ⟨{ q with distance := r.distance }, ?_, ?_⟩
      · apply List.mem_map.2
        refine ⟨r.distance, ?_, rfl⟩
        apply List.mem_filter.2
        refine ⟨valid_dist_mem _ hv, ?_⟩
        rw [hqs', hqc']
        exact decide_eq_true hv
      · simp only [inSpace]
        exact ⟨hg, hc', hs, Or.inr (by simp), hdate, hage, hz⟩
    · apply List.Nodup.pairwise_of_forall_ne
      · apply List.Nodup.map_on
        · intro x _ y _ hxy
          simpa [TopTimesRequest.mk.injEq] using hxy
        · exact List.Nodup.filter _ (by decide)
      · intro a ha b hb hab r hv hcon
        obtain ⟨hia, hib⟩ := hcon
        obtain ⟨da, hda, rfl⟩ := List.mem_map.1 ha
        obtain ⟨db, hdb, rfl⟩ := List.mem_map.1 hb
        simp only [inSpace] at hia hib
        obtain ⟨-, -, -, had, -, -, -⟩ := hia
        obtain ⟨-, -, -, hbd, -, -, -⟩ := hib
        have hdane : da ≠ 0 := distances_ne_zero da (List.mem_of_mem_filter hda)
        have hdbne : db ≠ 0 := distances_ne_zero db (List.mem_of_mem_filter hdb)
        rcases had with hx | hx
        · exact hdane hx
        · rcases hbd with hy | hy
          · exact hdbne hy
          · exact hab (by rw [show da = db from hx.trans hy.symm])
  -- date axis
  · have hlt : q.from_date < q.to_date := by
      have := h4.2
      omega
    unfold dateSplit
    have htd : Int.tdiv (q.to_date - q.from_date) 2 = (q.to_date - q.from_date) / 2 :=
      Int.tdiv_eq_ediv (by omega) (by norm_num)
    rw [htd]
    by_cases hm : (q.to_date - q.from_date) / 2 = 0
    · rw [if_pos hm]
      have h2d : q.to_date = q.from_date + 1 := by omega
      refine ⟨Or.inr (by simp), ?_, ?_, ?_, ?_⟩
      · intro c hc
        simp only [List.mem_cons, List.not_mem_nil, or_false] at hc
        rcases hc with rfl | rfl
        · show q.from_date ≤ q.from_date; omega
        · show q.to_date ≤ q.to_date; omega
      · intro c hc r hin
        simp only [List.mem_cons, List.not_mem_nil, or_false] at hc
        rcases hc with rfl | rfl <;>
        · simp only [inSpace] at hin ⊢
          obtain ⟨hg, hc', hs, hd, ⟨hd1, hd2⟩, hage, hz⟩ := hin
          exact ⟨hg, hc', hs, hd, ⟨by omega, by omega⟩, hage, hz⟩
      · intro _ r hv hin
        simp only [inSpace] at hin
        obtain ⟨hg, hc', hs, hd, ⟨hd1, hd2⟩, hage, hz⟩ := hin
        by_cases hr : r.date ≤ q.from_date
        · refine ⟨{ q with to_date := q.from_date }, by simp, ?_⟩
          simp only [inSpace]
          exact ⟨hg, hc', hs, hd, ⟨by omega, by omega⟩, hage, hz⟩
        · refine ⟨{ q with from_date := q.to_date }, by simp, ?_⟩
          simp only [inSpace]
          exact ⟨hg, hc', hs, hd, ⟨by omega, by omega⟩, hage, hz⟩
      · refine List.Pairwise.cons ?_ (List.pairwise_singleton _ _)
        intro y hy
        simp only [List.mem_cons, List.not_mem_nil, or_false] at hy
        subst hy
        intro r hv hcon
        obtain ⟨hia, hib⟩ := hcon
        simp only [inSpace] at hia hib
        obtain ⟨-, -, -, -, ⟨ha1, ha2⟩, -, -⟩ := hia
        obtain ⟨-, -, -, -, ⟨hb1, hb2⟩, -, -⟩ := hib
        omega
    · rw [if_neg hm]
      have hmid1 : 1 ≤ (q.to_date - q.from_date) / 2 := by omega
      have hmid2 : (q.to_date - q.from_date) / 2 ≤ q.to_date - q.from_date - 1 := by omega
      rw [if_neg (show ¬(q.to_date < q.from_date + (q.to_date - q.from_date) / 2) by omega)]
      refine ⟨Or.inr (by simp), ?_, ?_, ?_, ?_⟩
      · intro c hc
        simp only [List.mem_cons, List.not_mem_nil, or_false] at hc
        rcases hc with rfl | rfl
        · show q.from_date ≤ q.from_date + ((q.to_date - q.from_date) / 2 - 1); omega
        · show q.from_date + (q.to_date - q.from_date) / 2 ≤ q.to_date; omega
      · intro c hc r hin
        simp only [List.mem_cons, List.not_mem_nil, or_false] at hc
        rcases hc with rfl | rfl <;>
        · simp only [inSpace] at hin ⊢
          obtain ⟨hg, hc', hs, hd, ⟨hd1, hd2⟩, hage, hz⟩ := hin
          exact ⟨hg, hc', hs, hd, ⟨by omega, by omega⟩, hage, hz⟩
      · intro _ r hv hin
        simp only [inSpace] at hin
        obtain ⟨hg, hc', hs, hd, ⟨hd1, hd2⟩, hage, hz⟩ := hin
        by_cases hr : r.date ≤ q.from_date + ((q.to_date - q.from_date) / 2 - 1)
        · refine ⟨{ q with to_date := q.from_date + ((q.to_date - q.from_date) / 2 - 1) },
            by simp, ?_⟩
          simp only [inSpace]
          exact ⟨hg, hc', hs, hd, ⟨by omega, by omega⟩, hage, hz⟩
        · refine ⟨{ q with from_date := q.from_date + (q.to_date - q.from_date) / 2 },
            by simp, ?_⟩
          simp only [inSpace]
          exact ⟨hg, hc', hs, hd, ⟨by omega, by omega⟩, hage, hz⟩
      · refine List.Pairwise.cons ?_ (List.pairwise_singleton _ _)
        intro y hy
        simp only [List.mem_cons, List.not_mem_nil, or_false] at hy
        subst hy
        intro r hv hcon
        obtain ⟨hia, hib⟩ := hcon
        simp only [inSpace] at hia hib
        obtain ⟨-, -, -, -, ⟨ha1, ha2⟩, -, -⟩ := hia
        obtain ⟨-, -, -, -, ⟨hb1, hb2⟩, -, -⟩ := hib
        omega
  -- age axis
  · have hst := h5.2.1
    have hen := h5.2.2
    have hmm : ∀ x ∈ ageSplit q, ∀ rec : RecordKey, inSpace x rec →
        (x = { q with start_age := some 0, end_age := some 5 } ∧ rec.age ≤ 5) ∨
        ((∃ i, 6 ≤ i ∧ i < 30 ∧
          x = { q with start_age := some i, end_age := some i } ∧ rec.age = i)) ∨
        (x = { q with start_age := some 30, end_age := none } ∧ 30 ≤ rec.age) := by
      intro x hx rec hin
      simp only [ageSplit, List.mem_cons, List.mem_append, List.mem_map,
        List.mem_range'] at hx
      rcases hx with (rfl | ⟨i, ⟨j, hj, rfl⟩, rfl⟩) | rfl | h0
      · left
        refine ⟨rfl, ?_⟩
        simp only [inSpace] at hin
        obtain ⟨-, -, -, -, -, ⟨-, hub⟩, -⟩ := hin
        simpa [optUB] using hub
      · right; left
        simp only [inSpace] at hin
        obtain ⟨-, -, -, -, -, ⟨hlb, hub⟩, -⟩ := hin
        simp only [optLB] at hlb
        simp only [optUB] at hub
        exact ⟨6 + 1 * j, by omega, by omega, rfl, by omega⟩
      · right; right
        refine ⟨rfl, ?_⟩
        simp only [inSpace] at hin
        obtain ⟨-, -, -, -, -, ⟨hlb, -⟩, -⟩ := hin
        simpa [optLB] using hlb
      · exact absurd h0 (List.not_mem_nil x)
    refine ⟨Or.inr (by rw [ageSplit_length]; omega), ?_, ?_, ?_, ?_⟩
    · intro c hc
      simp only [ageSplit, List.mem_cons, List.mem_append, List.mem_map,
        List.mem_range'] at hc
      rcases hc with (rfl | ⟨i, -, rfl⟩) | rfl | h0
      · exact h
      · exact h
      · exact h
      · exact absurd h0 (List.not_mem_nil c)
    · intro c hc r hin
      simp only [ageSplit, List.mem_cons, List.mem_append, List.mem_map,
        List.mem_range'] at hc
      rcases hc with (rfl | ⟨i, -, rfl⟩) | rfl | h0
      · simp only [inSpace] at hin
        obtain ⟨hg, hc', hs, hd, hdate, -, hz⟩ := hin
        simp only [inSpace, hst, hen]
        exact ⟨hg, hc', hs, hd, hdate, ⟨by simp [optLB], by simp [optUB]⟩, hz⟩
      · simp only [inSpace] at hin
        obtain ⟨hg, hc', hs, hd, hdate, -, hz⟩ := hin
        simp only [inSpace, hst, hen]
        exact ⟨hg, hc', hs, hd, hdate, ⟨by simp [optLB], by simp [optUB]⟩, hz⟩
      · simp only [inSpace] at hin
        obtain ⟨hg, hc', hs, hd, hdate, -, hz⟩ := hin
        simp only [inSpace, hst, hen]
        exact ⟨hg, hc', hs, hd, hdate, ⟨by simp [optLB], by simp [optUB]⟩, hz⟩
      · exact absurd h0 (List.not_mem_nil c)
    · intro _ r hv hin
      simp only [inSpace] at hin
      obtain ⟨hg, hc', hs, hd, hdate, -, hz⟩ := hin
      by_cases hr1 : r.age ≤ 5
      · refine ⟨{ q with start_age := some 0, end_age := some 5 }, by simp [ageSplit], ?_⟩
        simp only [inSpace]
        exact ⟨hg, hc', hs, hd, hdate, ⟨by simp [optLB], by simp [optUB]; omega⟩, hz⟩
      · by_cases hr2 : r.age ≤ 29
        · refine ⟨{ q with start_age := some r.age, end_age := some r.age }, ?_, ?_⟩
          · simp only [ageSplit, List.mem_cons, List.mem_append, List.mem_map,
              List.mem_range']
            exact Or.inl (Or.inr ⟨r.age, ⟨r.age - 6, by omega⟩, rfl⟩)
          · simp only [inSpace]
            exact ⟨hg, hc', hs, hd, hdate, ⟨by simp [optLB], by simp [optUB]⟩, hz⟩
        · refine ⟨{ q with start_age := some 30, end_age := none },
            by simp [ageSplit], ?_⟩
          simp only [inSpace]
          exact ⟨hg, hc', hs, hd, hdate, ⟨by simp [optLB]; omega, by simp [optUB]⟩, hz⟩
    · apply List.Nodup.pairwise_of_forall_ne
      · apply List.Nodup.of_map (fun x => x.start_age)
        have hmap : (ageSplit q).map (fun x => x.start_age) =
            some 0 :: ((List.range' 6 24).map some ++ [some 30]) := by
          simp only [ageSplit, List.map_cons, List.map_append, List.map_map, List.map_nil]
          rfl
        rw [hmap, List.nodup_cons]
        constructor
        · simp only [List.mem_append, List.mem_map, List.mem_range',
            List.mem_singleton, Option.some.injEq]
          rintro (⟨i, ⟨j, hj, rfl⟩, hi⟩ | hx)
          · omega
          · omega
        · rw [List.nodup_append]
          refine ⟨?_, List.nodup_singleton _, ?_⟩
          · exact List.Nodup.map (Option.some_injective _)
              (List.nodup_range' 6 24 1 (by norm_num))
          · intro x hx hy
            simp only [List.mem_map, List.mem_range', Option.some.injEq] at hx
            obtain ⟨i, ⟨j, hj, rfl⟩, rfl⟩ := hx
            simp only [List.mem_singleton, Option.some.injEq] at hy
            omega
      · intro a ha b hb hab r hv hcon
        obtain ⟨hia, hib⟩ := hcon
        rcases hmm a ha r hia with ⟨rfl, hA⟩ | ⟨i, hi1, hi2, rfl, hA⟩ | ⟨rfl, hA⟩ <;>
          rcases hmm b hb r hib with ⟨hbeq, hB⟩ | ⟨j, hj1, hj2, hbeq, hB⟩ | ⟨hbeq, hB⟩
        · exact hab hbeq.symm
        · omega
        · omega
        · omega
        · subst hbeq
          exact hab (by rw [show i = j from by omega])
        · omega
        · omega
        · omega
        · exact hab hbeq.symm
  -- zone axis (disabled flag)
  · exact absurd h6.1 (by simp)
  -- leaf
  · exact ⟨Or.inl rfl, by simp, by simp, fun hne => absurd rfl hne, List.Pairwise.nil⟩

theorem spacesDisjoint_symm : Symmetric spacesDisjoint := by
  intro a b hab r hv hcon
  exact hab r hv ⟨hcon.2, hcon.1⟩

theorem spacesDisjoint_of_subset (c x z : TopTimesRequest)
    (hsub : ∀ r : RecordKey, inSpace c r → inSpace x r)
    (hdisj : spacesDisjoint x z) : spacesDisjoint c z := by
  intro r hv hcon
  exact hdisj r hv ⟨hsub r hcon.1, hcon.2⟩

theorem atomizeGo_space :
    ∀ (fuel : Nat) (queue out res : List TopTimesRequest),
      atomizeGo true true true true true false fuel queue out = some res →
      (∀ x ∈ queue, x.from_date ≤ x.to_date) →
      (∀ r : RecordKey, validRec r →
        ((∃ x ∈ queue ++ out, inSpace x r) ↔ ∃ x ∈ res, inSpace x r)) ∧
      ((queue ++ out).Pairwise spacesDisjoint → res.Pairwise spacesDisjoint) := by
  intro fuel
  induction fuel with
  | zero =>
    intro queue out res heq hinv
    cases queue with
    | nil =>
      have hor : out = res := by simpa [atomizeGo] using heq
      subst hor
      exact ⟨fun r hv => by rw [List.nil_append], by rw [List.nil_append]; exact id⟩
    | cons x rest =>
      exact absurd heq (by simp [atomizeGo])
  | succ n ih =>
    intro queue out res heq hinv
    cases queue with
    | nil =>
      have hor : out = res := by simpa [atomizeGo] using heq
      subst hor
      exact ⟨fun r hv => by rw [List.nil_append], by rw [List.nil_append]; exact id⟩
    | cons x rest =>
      have hx := hinv x (by simp)
      have hspec := divideStd_spec x hx
      have hstep : atomizeGo true true true true true false (n + 1) (x :: rest) out =
          if divideStd x = [] then
            atomizeGo true true true true true false n rest (out ++ [x])
          else
            atomizeGo true true true true true false n (rest ++ divideStd x) out := rfl
      rw [hstep] at heq
      by_cases hd : divideStd x = []
      · rw [if_pos hd] at heq
        have IH := ih rest (out ++ [x]) res heq fun y hy => hinv y (by simp [hy])
        have hmem : ∀ y : TopTimesRequest,
            y ∈ (x :: rest) ++ out ↔ y ∈ rest ++ (out ++ [x]) := by
          intro y
          simp only [List.mem_append, List.mem_cons, List.mem_singleton]
          tauto
        constructor
        · intro r hv
          rw [← IH.1 r hv]
          constructor
          · rintro ⟨y, hy, hins⟩; exact ⟨y, (hmem y).1 hy, hins⟩
          · rintro ⟨y, hy, hins⟩; exact ⟨y, (hmem y).2 hy, hins⟩
        · intro hpw
          apply IH.2
          have hperm : ((x :: rest) ++ out).Perm (rest ++ (out ++ [x])) := by
            rw [← List.append_assoc]
            exact (List.perm_append_singleton x (rest ++ out)).symm
          exact (hperm.pairwise_iff fun hxy => spacesDisjoint_symm hxy).1 hpw
      · rw [if_neg hd] at heq
        have hdates : ∀ y ∈ rest ++ divideStd x, y.from_date ≤ y.to_date := by
          intro y hy
          rcases List.mem_append.1 hy with hy | hy
          · exact hinv y (by simp [hy])
          · exact hspec.2.1 y hy
        have IH := ih (rest ++ divideStd x) out res heq hdates
        constructor
        · intro r hv
          rw [← IH.1 r hv]
          constructor
          · rintro ⟨y, hy, hins⟩
            have hy' : y = x ∨ y ∈ rest ∨ y ∈ out := by
              simpa [List.mem_append, List.mem_cons, or_assoc] using hy
            rcases hy' with rfl | hy' | hy'
            · obtain ⟨c, hc, hcin⟩ := hspec.2.2.2.1 hd r hv hins
              exact ⟨c, by simp [List.mem_append, hc], hcin⟩
            · exact ⟨y, by simp [List.mem_append, hy'], hins⟩
            · exact ⟨y, by simp [List.mem_append, hy'], hins⟩
          · rintro ⟨y, hy, hins⟩
            have hy' : y ∈ rest ∨ y ∈ divideStd x ∨ y ∈ out := by
              simpa [List.mem_append, or_assoc] using hy
            rcases hy' with hy' | hy' | hy'
            · exact ⟨y, by simp [List.mem_append, List.mem_cons, hy'], hins⟩
            · exact ⟨x, by simp, hspec.2.2.1 y hy' r hins⟩
            · exact ⟨y, by simp [List.mem_append, List.mem_cons, hy'], hins⟩
        · intro hpw
          apply IH.2
          have hpw' : List.Pairwise spacesDisjoint (x :: (rest ++ out)) := hpw
          rw [List.pairwise_cons] at hpw'
          obtain ⟨hxall, hro⟩ := hpw'
          rw [List.pairwise_append] at hro
          obtain ⟨hprest, hpout, hcross⟩ := hro
          rw [List.append_assoc, List.pairwise_append]
          refine ⟨hprest, ?_, ?_⟩
          · rw [List.pairwise_append]
            refine ⟨hspec.2.2.2.2, hpout, ?_⟩
            intro c hc z hz
            exact spacesDisjoint_of_subset c x z (fun r hr => hspec.2.2.1 c hc r hr)
              (hxall z (by simp [hz]))
          · intro y hy z hz
            rcases List.mem_append.1 hz with hz | hz
            · apply spacesDisjoint_symm
              exact spacesDisjoint_of_subset z x y (fun r hr => hspec.2.2.1 z hz r hr)
                (hxall y (by simp [hy]))
            · exact hcross y hy z hz

/-- C2 counterexample: for a request whose date range is reversed by one day
(so that its logical result space is empty), the children returned by `divide`
match a valid record key that the parent does not match, so the union of the
children's result spaces is not the parent's result space. -/
theorem c2_counterexample :
    divideStd exRevReq =
      [{ exRevReq with to_date := exRevReq.from_date },
       { exRevReq with from_date := exRevReq.to_date }] ∧
    validRec exRec ∧
    inSpace { exRevReq with to_date := exRevReq.from_date } exRec ∧
    ¬ inSpace exRevReq exRec := by
  decide

/-- C2 (amended): for every query with a well-ordered date range
(`date-from <= date-to`), `divide` either returns the empty list or at least
two children; distinct children have pairwise disjoint logical result spaces
on valid records; when non-empty, the union of the children's result spaces
equals the parent's result space restricted to valid records; and the leaves
produced by `atomize` cover exactly the parent's valid result space with no
overlap between distinct leaves. -/
theorem c2_partition :
    ∀ q : TopTimesRequest, q.from_date ≤ q.to_date →
      (divideStd q = [] ∨ 2 ≤ (divideStd q).length) ∧
      (∀ c1 ∈ divideStd q, ∀ c2 ∈ divideStd q, c1 ≠ c2 →
        ∀ r : RecordKey, validRec r → ¬(inSpace c1 r ∧ inSpace c2 r)) ∧
      (divideStd q ≠ [] → ∀ r : RecordKey, validRec r →
        (inSpace q r ↔ ∃ c ∈ divideStd q, inSpace c r)) ∧
      (∀ r : RecordKey, validRec r →
        (inSpace q r ↔ ∃ x ∈ atomizeStd q, inSpace x r)) ∧
      (∀ x1 ∈ atomizeStd q, ∀ x2 ∈ atomizeStd q, x1 ≠ x2 →
        ∀ r : RecordKey, validRec r → ¬(inSpace x1 r ∧ inSpace x2 r)) := by
  intro q h
  have hspec := divideStd_spec q h
  have hsome : (atomizeGo true true true true true false (facetProduct q)
      [q] []).isSome = true := by
    apply atomizeGo_total
    · intro x hx
      have hxq : x = q := by simpa using hx
      rw [hxq]; exact h
    · exact queueWeight_singleton_le true true true true true false q h
  obtain ⟨res, hres⟩ := Option.isSome_iff_exists.1 hsome
  have hatom : atomizeStd q = res := by
    unfold atomizeStd; rw [hres]; rfl
  have hsp := atomizeGo_space (facetProduct q) [q] [] res hres
    (by intro x hx; rw [show x = q by simpa using hx]; exact h)
  refine ⟨hspec.1, ?_, ?_, ?_, ?_⟩
  · intro c1 h1 c2 h2 hne r hv hcon
    exact List.Pairwise.forall spacesDisjoint_symm
      hspec.2.2.2.2 h1 h2 hne r hv hcon
  · intro hne r hv
    constructor
    · intro hin
      exact hspec.2.2.2.1 hne r hv hin
    · rintro ⟨c, hc, hcin⟩
      exact hspec.2.2.1 c hc r hcin
  · intro r hv
    rw [hatom, ← hsp.1 r hv]
    constructor
    · intro hin
      exact ⟨q, by simp, hin⟩
    · rintro ⟨y, hy, hins⟩
      have hyq : y = q := by simpa using hy
      rw [hyq] at hins
      exact hins
  · intro x1 h1 x2 h2 hne r hv hcon
    rw [hatom] at h1 h2
    have hpw : res.Pairwise spacesDisjoint := hsp.2 (by simp)
    exact List.Pairwise.forall spacesDisjoint_symm
      hpw h1 h2 hne r hv hcon

/-- C2 amended witness: the partition facts instantiated at a concrete
wildcard-course request. -/
theorem c2_partition_witness :
    exCourseAllReq.from_date ≤ exCourseAllReq.to_date ∧
    (divideStd exCourseAllReq = [] ∨ 2 ≤ (divideStd exCourseAllReq).length) :=
  ⟨by decide, (c2_partition exCourseAllReq (by decide)).1⟩

/-- C4 amended witness: the two-day concrete scenario, split into two
single-day children. -/
theorem c4_date_bisection_witness :
    ∃ l r, divideStd exTwoDayReq = [l, r] ∧
      l.from_date = exTwoDayReq.from_date ∧ r.to_date = exTwoDayReq.to_date ∧
      l.to_date + 1 = r.from_date ∧
      l.from_date ≤ l.to_date ∧ r.from_date ≤ r.to_date ∧
      (∀ d : Int, dayIn exTwoDayReq d ↔ (dayIn l d ∨ dayIn r d)) ∧
      (∀ d : Int, ¬(dayIn l d ∧ dayIn r d)) ∧
      (exTwoDayReq.to_date = exTwoDayReq.from_date + 1 →
        l = { exTwoDayReq with to_date := exTwoDayReq.from_date } ∧
        r = { exTwoDayReq with from_date := exTwoDayReq.to_date }) :=
  c4_date_bisection.1 exTwoDayReq (by decide) (by decide) (by decide) (by decide)

end Usas

namespace Swimrs

theorem natReprGo_congr :
    ∀ (n f1 f2 : Nat), n ≤ f1 → n ≤ f2 → natReprGo f1 n = natReprGo f2 n := by
  intro n
  induction n using Nat.strong_induction_on with
  | _ n ih =>
    intro f1 f2 h1 h2
    cases f1 with
    | zero =>
      have hn : n = 0 := by omega
      subst hn
      cases f2 with
      | zero => rfl
      | succ g2 => simp [natReprGo]
    | succ g1 =>
      cases f2 with
      | zero =>
        have hn : n = 0 := by omega
        subst hn
        simp [natReprGo]
      | succ g2 =>
        by_cases h : n < 10
        · simp [natReprGo, h]
        · simp only [natReprGo, if_neg h]
          rw [ih (n / 10) (Nat.div_lt_self (by omega) (by omega)) g1 g2
            (by omega) (by omega)]

theorem natRepr_lt {n : Nat} (h : n < 10) : natRepr n = [digitChar n] := by
  unfold natRepr
  cases n with
  | zero => rfl
  | succ m => simp [natReprGo, h]

theorem natRepr_ge {n : Nat} (h : ¬ n < 10) :
    natRepr n = natRepr (n / 10) ++ [digitChar (n % 10)] := by
  unfold natRepr
  obtain ⟨m, rfl⟩ : ∃ m, n = m + 1 := ⟨n - 1, by omega⟩
  simp only [natReprGo, if_neg h]
  rw [natReprGo_congr ((m + 1) / 10) m ((m + 1) / 10) (by omega) (by omega)]

theorem digitVal_digitChar {m : Nat} (h : m < 10) : digitVal (digitChar m) = m := by
  interval_cases m <;> rfl

theorem digitChar_mem_digits (m : Nat) : digitChar m ∈ "0123456789".data := by
  unfold digitChar
  split <;> decide

theorem parseVal_append_singleton (l : List Char) (c : Char) :
    parseVal (l ++ [c]) = 10 * parseVal l + digitVal c := by
  unfold parseVal
  rw [List.foldl_append]
  rfl

theorem parseVal_natRepr (n : Nat) : parseVal (natRepr n) = n := by
  induction n using Nat.strong_induction_on with
  | _ n ih =>
    by_cases h : n < 10
    · rw [natRepr_lt h]
      show 10 * 0 + digitVal (digitChar n) = n
      rw [digitVal_digitChar h]
      omega
    · rw [natRepr_ge h, parseVal_append_singleton,
        ih (n / 10) (Nat.div_lt_self (by omega) (by omega)),
        digitVal_digitChar (Nat.mod_lt _ (by omega))]
      omega

theorem natRepr_inj {a b : Nat} (h : natRepr a = natRepr b) : a = b := by
  rw [← parseVal_natRepr a, ← parseVal_natRepr b, h]

theorem natRepr_digits (n : Nat) : ∀ c ∈ natRepr n, c ∈ "0123456789".data := by
  induction n using Nat.strong_induction_on with
  | _ n ih =>
    intro c hc
    by_cases h : n < 10
    · rw [natRepr_lt h] at hc
      simp at hc
      exact hc ▸ digitChar_mem_digits n
    · rw [natRepr_ge h] at hc
      rcases List.mem_append.mp hc with h1 | h2
      · exact ih (n / 10) (Nat.div_lt_self (by omega) (by omega)) c h1
      · simp at h2
        exact h2 ▸ digitChar_mem_digits (n % 10)

theorem natRepr_ne_nil (n : Nat) : natRepr n ≠ [] := by
  by_cases h : n < 10
  · rw [natRepr_lt h]; simp
  · rw [natRepr_ge h]; simp

theorem parseVal_cons_zero (l : List Char) : parseVal ('0' :: l) = parseVal l := by
  unfold parseVal
  rfl

theorem parseVal_pad2 (n : Nat) : parseVal (pad2 n) = n := by
  unfold pad2
  split
  · rw [parseVal_cons_zero, parseVal_natRepr]
  · rw [parseVal_natRepr]

theorem pad2_inj {a b : Nat} (h : pad2 a = pad2 b) : a = b := by
  rw [← parseVal_pad2 a, ← parseVal_pad2 b, h]

theorem foldl_replicate_zero (k : Nat) :
    List.foldl (fun acc c => 10 * acc + digitVal c) 0 (List.replicate k '0') = 0 := by
  induction k with
  | zero => rfl
  | succ m ih => rw [List.replicate_succ]; exact ih

theorem parseVal_pad4 (n : Nat) : parseVal (pad4 n) = n := by
  unfold pad4 parseVal
  rw [List.foldl_append, foldl_replicate_zero]
  exact parseVal_natRepr n

theorem pad4_inj {a b : Nat} (h : pad4 a = pad4 b) : a = b := by
  rw [← parseVal_pad4 a, ← parseVal_pad4 b, h]

theorem pad2_digits (n : Nat) : ∀ c ∈ pad2 n, c ∈ "0123456789".data := by
  intro c hc
  unfold pad2 at hc
  split at hc
  · rcases List.mem_cons.mp hc with h1 | h2
    · subst h1; decide
    · exact natRepr_digits n c h2
  · exact natRepr_digits n c hc

theorem pad4_digits (n : Nat) : ∀ c ∈ pad4 n, c ∈ "0123456789".data := by
  intro c hc
  unfold pad4 at hc
  rcases List.mem_append.mp hc with h1 | h2
  · rw [List.eq_of_mem_replicate h1]; decide
  · exact natRepr_digits n c h2

theorem pad4_ne_nil (n : Nat) : pad4 n ≠ [] := by
  unfold pad4
  intro h
  rcases List.append_eq_nil.mp h with ⟨-, h2⟩
  exact natRepr_ne_nil n h2

theorem pad2_length {n : Nat} (h : n ≤ 99) : (pad2 n).length = 2 := by
  unfold pad2
  split
  · rw [natRepr_lt (by omega)]; rfl
  · rw [natRepr_ge (by omega), natRepr_lt (by omega)]; rfl

theorem pad4_head_digit (n : Nat) :
    ∃ c l, pad4 n = c :: l ∧ c ∈ "0123456789".data := by
  rcases List.exists_cons_of_ne_nil (pad4_ne_nil n) with ⟨c, l, hcl⟩
  exact ⟨c, l, hcl, pad4_digits n c (hcl ▸ List.mem_cons_self c l)⟩

theorem yearStr_inj {a b : Int} (h : yearStr a = yearStr b) : a = b := by
  unfold yearStr at h
  split_ifs at h with h1 h2 h3 h4 h5 h6 h7 h8
  · have := pad4_inj h
    omega
  · rcases pad4_head_digit a.toNat with ⟨c, l, hcl, hcd⟩
    rw [hcl] at h
    injection h with h9 h10
    rw [h9] at hcd
    exact absurd hcd (by decide)
  · rcases pad4_head_digit a.toNat with ⟨c, l, hcl, hcd⟩
    rw [hcl] at h
    injection h with h9 h10
    rw [h9] at hcd
    exact absurd hcd (by decide)
  · rcases pad4_head_digit b.toNat with ⟨c, l, hcl, hcd⟩
    rw [hcl] at h
    injection h with h9 h10
    rw [← h9] at hcd
    exact absurd hcd (by decide)
  · injection h with h9 h10
    have := pad4_inj h10
    omega
  · injection h with h9
    exact absurd h9 (by decide)
  · rcases pad4_head_digit b.toNat with ⟨c, l, hcl, hcd⟩
    rw [hcl] at h
    injection h with h9 h10
    rw [← h9] at hcd
    exact absurd hcd (by decide)
  · injection h with h9
    exact absurd h9 (by decide)
  · injection h with h9 h10
    have := pad4_inj h10
    omega

theorem yearStr_chars (y : Int) : ∀ c ∈ yearStr y, c ∈ "0123456789-+".data := by
  intro c hc
  unfold yearStr at hc
  have hd : ∀ n, ∀ c ∈ pad4 n, c ∈ "0123456789-+".data := by
    intro n c hc
    have := pad4_digits n c hc
    revert this
    intro h
    fin_cases h <;> decide
  split_ifs at hc with h1 h2
  · exact hd _ c hc
  · rcases List.mem_cons.mp hc with h3 | h4
    · subst h3; decide
    · exact hd _ c h4
  · rcases List.mem_cons.mp hc with h3 | h4
    · subst h3; decide
    · exact hd _ c h4

theorem dateStr_chars (d : CDate) : ∀ c ∈ dateStr d, c ∈ "0123456789-+".data := by
  intro c hc
  unfold dateStr at hc
  have hp : ∀ n, ∀ c ∈ pad2 n, c ∈ "0123456789-+".data := by
    intro n c hc
    have := pad2_digits n c hc
    revert this
    intro h
    fin_cases h <;> decide
  rcases List.mem_append.mp hc with h1 | h2
  · exact yearStr_chars d.year c h1
  · rcases List.mem_cons.mp h2 with h3 | h4
    · subst h3; decide
    · rcases List.mem_append.mp h4 with h5 | h6
      · exact hp _ c h5
      · rcases List.mem_cons.mp h6 with h7 | h8
        · subst h7; decide
        · exact hp _ c h8

theorem dateStr_inj {d1 d2 : CDate} (h1 : d1.valid) (h2 : d2.valid)
    (h : dateStr d1 = dateStr d2) : d1 = d2 := by
  obtain ⟨hm1, hm2, hd1, hd2, -, -⟩ := h1
  obtain ⟨hm3, hm4, hd3, hd4, -, -⟩ := h2
  unfold dateStr at h
  have hlen : ('-' :: (pad2 d1.month ++ '-' :: pad2 d1.day)).length
      = ('-' :: (pad2 d2.month ++ '-' :: pad2 d2.day)).length := by
    simp [pad2_length (show d1.month ≤ 99 by omega),
      pad2_length (show d2.month ≤ 99 by omega),
      pad2_length (show d1.day ≤ 99 by omega),
      pad2_length (show d2.day ≤ 99 by omega)]
  obtain ⟨hy, hrest⟩ := List.append_inj' h hlen
  injection hrest with _ hrest
  obtain ⟨hmo, hrest2⟩ := List.append_inj hrest
    (by rw [pad2_length (show d1.month ≤ 99 by omega),
      pad2_length (show d2.month ≤ 99 by omega)])
  injection hrest2 with _ hday
  obtain ⟨y1, m1, dd1⟩ := d1
  obtain ⟨y2, m2, dd2⟩ := d2
  simp only at hy hmo hday
  rw [yearStr_inj hy, pad2_inj hmo, pad2_inj hday]

/-- A list equation `a ++ sep :: x = b ++ sep :: y` splits at the first
occurrence of `sep` when neither prefix contains `sep`. -/
theorem append_sep_inj {sep : Char} {a : List Char} :
    ∀ {b x y : List Char}, sep ∉ a → sep ∉ b →
      a ++ sep :: x = b ++ sep :: y → a = b ∧ x = y := by
  induction a with
  | nil =>
    intro b x y _ hb h
    cases b with
    | nil =>
      simp only [List.nil_append] at h
      injection h with _ h2
      exact ⟨rfl, h2⟩
    | cons c bt =>
      simp only [List.nil_append, List.cons_append] at h
      injection h with h1 _
      rw [h1] at hb
      exact absurd (List.mem_cons_self _ _) hb
  | cons c ta ih =>
    intro b x y ha hb h
    cases b with
    | nil =>
      simp only [List.cons_append, List.nil_append] at h
      injection h with h1 _
      rw [← h1] at ha
      exact absurd (List.mem_cons_self _ _) ha
    | cons c2 bt =>
      simp only [List.cons_append] at h
      injection h with h1 h2
      obtain ⟨he, hxy⟩ := ih (fun hm => ha (List.mem_cons_of_mem _ hm))
        (fun hm => hb (List.mem_cons_of_mem _ hm)) h2
      exact ⟨by rw [h1, he], hxy⟩

theorem toLower_slash : Char.toLower '/' = '/' := by decide

theorem toLower_underscore : Char.toLower '_' = '_' := by decide

theorem reqId_shape (q : TopTimesRequest) :
    reqId q =
      lowerStr (genderStr q.gender) ++ '/' ::
      (lowerStr (courseStr q.course) ++ '_' :: (lowerStr (strokeStr q.stroke) ++ '_' ::
      (lowerStr (distStr q.distance) ++ '/' ::
      (lowerStr (zoneStr q.zone) ++ '_' :: (lowerStr (lscsStr q.lscs) ++ '/' ::
      (lowerStr (ttStr q.time_type) ++ '_' :: (lowerStr (boolStr q.members_only) ++ '_' ::
      (lowerStr (boolStr q.best_only) ++ '_' :: (lowerStr (natRepr q.max_results) ++ '/' ::
      (lowerStr (ageStr q.start_age) ++ '_' :: (lowerStr (ageStr q.end_age) ++ '/' ::
      (lowerStr (dateStr q.from_date) ++ '_' :: lowerStr (dateStr q.to_date))))))))))))) := by
  simp [reqId, display, lowerStr, List.map_append, toLower_slash, toLower_underscore]

theorem digit_widen {c : Char} (h : c ∈ "0123456789".data) :
    c ∈ "0123456789-+".data := by
  fin_cases h <;> decide

theorem toLower_fix {c : Char} (h : c ∈ "0123456789-+".data) :
    Char.toLower c = c := by
  fin_cases h <;> decide

theorem lowerStr_fix : ∀ {l : List Char},
    (∀ c ∈ l, c ∈ "0123456789-+".data) → lowerStr l = l := by
  intro l
  induction l with
  | nil => intro _; rfl
  | cons c t ih =>
    intro h
    show Char.toLower c :: lowerStr t = c :: t
    rw [toLower_fix (h c (List.mem_cons_self c t)),
      ih (fun x hx => h x (List.mem_cons_of_mem _ hx))]

theorem lowerStr_natRepr (n : Nat) : lowerStr (natRepr n) = natRepr n :=
  lowerStr_fix (fun c hc => digit_widen (natRepr_digits n c hc))

theorem lowerStr_dateStr (d : CDate) : lowerStr (dateStr d) = dateStr d :=
  lowerStr_fix (dateStr_chars d)

theorem slash_not_mem_gender : ∀ g : Gender, '/' ∉ lowerStr (genderStr g) := by
  decide

theorem usc_not_mem_course : ∀ c : Course, '_' ∉ lowerStr (courseStr c) := by
  decide

theorem usc_not_mem_stroke : ∀ s : Stroke, '_' ∉ lowerStr (strokeStr s) := by
  decide

theorem slash_not_mem_dist : ∀ d : Distance, '/' ∉ lowerStr (distStr d) := by
  decide

theorem usc_not_mem_zone : ∀ z : Zone, '_' ∉ lowerStr (zoneStr z) := by
  decide

theorem slash_not_mem_lscs_none : '/' ∉ lowerStr (lscsStr none) := by
  decide

theorem usc_not_mem_tt : ∀ t : TimeType, '_' ∉ lowerStr (ttStr t) := by
  decide

theorem usc_not_mem_bool : ∀ b : Bool, '_' ∉ lowerStr (boolStr b) := by
  decide

theorem slash_not_mem_natRepr (n : Nat) : '/' ∉ lowerStr (natRepr n) := by
  rw [lowerStr_natRepr]
  intro h
  exact absurd (natRepr_digits n _ h) (by decide)

theorem usc_not_mem_age : ∀ a : Option Nat, '_' ∉ lowerStr (ageStr a) := by
  intro a
  cases a with
  | none => decide
  | some n =>
    show '_' ∉ lowerStr (natRepr n)
    rw [lowerStr_natRepr]
    intro h
    exact absurd (natRepr_digits n _ h) (by decide)

theorem slash_not_mem_age : ∀ a : Option Nat, '/' ∉ lowerStr (ageStr a) := by
  intro a
  cases a with
  | none => decide
  | some n => exact slash_not_mem_natRepr n

theorem usc_not_mem_date (d : CDate) : '_' ∉ lowerStr (dateStr d) := by
  rw [lowerStr_dateStr]
  intro h
  exact absurd (dateStr_chars d _ h) (by decide)

theorem genderStr_lower_inj :
    ∀ g1 g2 : Gender, lowerStr (genderStr g1) = lowerStr (genderStr g2) → g1 = g2 := by
  decide

theorem courseStr_lower_inj :
    ∀ c1 c2 : Course, lowerStr (courseStr c1) = lowerStr (courseStr c2) → c1 = c2 := by
  decide

theorem strokeStr_lower_inj :
    ∀ s1 s2 : Stroke, lowerStr (strokeStr s1) = lowerStr (strokeStr s2) → s1 = s2 := by
  decide

theorem distStr_lower_inj :
    ∀ d1 d2 : Distance, lowerStr (distStr d1) = lowerStr (distStr d2) → d1 = d2 := by
  decide

theorem zoneStr_lower_inj :
    ∀ z1 z2 : Zone, lowerStr (zoneStr z1) = lowerStr (zoneStr z2) → z1 = z2 := by
  decide

theorem ttStr_lower_inj :
    ∀ t1 t2 : TimeType, lowerStr (ttStr t1) = lowerStr (ttStr t2) → t1 = t2 := by
  decide

theorem boolStr_lower_inj :
    ∀ b1 b2 : Bool, lowerStr (boolStr b1) = lowerStr (boolStr b2) → b1 = b2 := by
  decide

theorem natRepr_lower_inj {n1 n2 : Nat}
    (h : lowerStr (natRepr n1) = lowerStr (natRepr n2)) : n1 = n2 := by
  rw [lowerStr_natRepr, lowerStr_natRepr] at h
  exact natRepr_inj h

theorem ageStr_lower_inj :
    ∀ a1 a2 : Option Nat, lowerStr (ageStr a1) = lowerStr (ageStr a2) → a1 = a2 := by
  intro a1 a2 h
  cases a1 with
  | none =>
    cases a2 with
    | none => rfl
    | some n =>
      have h2 : natRepr n = ['a', 'l', 'l'] := by
        rw [show lowerStr (ageStr (some n)) = natRepr n from lowerStr_natRepr n] at h
        rw [← h]
        decide
      have ha : 'a' ∈ natRepr n := by rw [h2]; decide
      exact absurd (natRepr_digits n _ ha) (by decide)
  | some n =>
    cases a2 with
    | none =>
      have h2 : natRepr n = ['a', 'l', 'l'] := by
        rw [show lowerStr (ageStr (some n)) = natRepr n from lowerStr_natRepr n] at h
        rw [h]
        decide
      have ha : 'a' ∈ natRepr n := by rw [h2]; decide
      exact absurd (natRepr_digits n _ ha) (by decide)
    | some m =>
      rw [show lowerStr (ageStr (some n)) = natRepr n from lowerStr_natRepr n,
        show lowerStr (ageStr (some m)) = natRepr m from lowerStr_natRepr m] at h
      rw [natRepr_inj h]

theorem dateStr_lower_inj {d1 d2 : CDate} (hv1 : d1.valid) (hv2 : d2.valid)
    (h : lowerStr (dateStr d1) = lowerStr (dateStr d2)) : d1 = d2 := by
  rw [lowerStr_dateStr, lowerStr_dateStr] at h
  exact dateStr_inj hv1 hv2 h

theorem reqId_inj {q1 q2 : TopTimesRequest}
    (hl1 : q1.lscs = none) (hl2 : q2.lscs = none)
    (hf1 : q1.from_date.valid) (ht1 : q1.to_date.valid)
    (hf2 : q2.from_date.valid) (ht2 : q2.to_date.valid)
    (h : reqId q1 = reqId q2) : q1 = q2 := by
  rw [reqId_shape q1, reqId_shape q2, hl1, hl2] at h
  obtain ⟨hg, h⟩ := append_sep_inj (slash_not_mem_gender _) (slash_not_mem_gender _) h
  obtain ⟨hc, h⟩ := append_sep_inj (usc_not_mem_course _) (usc_not_mem_course _) h
  obtain ⟨hs, h⟩ := append_sep_inj (usc_not_mem_stroke _) (usc_not_mem_stroke _) h
  obtain ⟨hdi, h⟩ := append_sep_inj (slash_not_mem_dist _) (slash_not_mem_dist _) h
  obtain ⟨hz, h⟩ := append_sep_inj (usc_not_mem_zone _) (usc_not_mem_zone _) h
  obtain ⟨-, h⟩ := append_sep_inj slash_not_mem_lscs_none slash_not_mem_lscs_none h
  obtain ⟨htt, h⟩ := append_sep_inj (usc_not_mem_tt _) (usc_not_mem_tt _) h
  obtain ⟨hmo, h⟩ := append_sep_inj (usc_not_mem_bool _) (usc_not_mem_bool _) h
  obtain ⟨hbo, h⟩ := append_sep_inj (usc_not_mem_bool _) (usc_not_mem_bool _) h
  obtain ⟨hmx, h⟩ := append_sep_inj (slash_not_mem_natRepr _) (slash_not_mem_natRepr _) h
  obtain ⟨hsa, h⟩ := append_sep_inj (usc_not_mem_age _) (usc_not_mem_age _) h
  obtain ⟨hea, h⟩ := append_sep_inj (slash_not_mem_age _) (slash_not_mem_age _) h
  obtain ⟨hfd, htd⟩ := append_sep_inj (usc_not_mem_date _) (usc_not_mem_date _) h
  obtain ⟨g1, di1, s1, c1, f1, t1, sa1, ea1, z1, l1, tt1, mo1, bo1, mx1⟩ := q1
  obtain ⟨g2, di2, s2, c2, f2, t2, sa2, ea2, z2, l2, tt2, mo2, bo2, mx2⟩ := q2
  simp only at hg hc hs hdi hz htt hmo hbo hmx hsa hea hfd htd hl1 hl2 hf1 ht1 hf2 ht2
  simp only [TopTimesRequest.mk.injEq]
  exact ⟨genderStr_lower_inj _ _ hg, distStr_lower_inj _ _ hdi,
    strokeStr_lower_inj _ _ hs, courseStr_lower_inj _ _ hc,
    dateStr_lower_inj hf1 hf2 hfd, dateStr_lower_inj ht1 ht2 htd,
    ageStr_lower_inj _ _ hsa, ageStr_lower_inj _ _ hea,
    zoneStr_lower_inj _ _ hz, hl1.trans hl2.symm,
    ttStr_lower_inj _ _ htt, boolStr_lower_inj _ _ hmo,
    boolStr_lower_inj _ _ hbo, natRepr_lower_inj hmx⟩

theorem lookup_upsert_success_self (db : Db) (i : List Char) (n : Nat) (dur : Rat) :
    lookupDb (upsert_request_success db i n dur) i
      = some ⟨ReqState.success, some n, none, dur⟩ := by
  induction db with
  | nil => simp [upsert_request_success, lookupDb]
  | cons p rest ih =>
    obtain ⟨k, v⟩ := p
    by_cases hk : k = i
    · simp [upsert_request_success, hk, lookupDb]
    · simp [upsert_request_success, hk, lookupDb, ih]

theorem lookup_upsert_success_ne (db : Db) {i j : List Char} (n : Nat) (dur : Rat)
    (h : i ≠ j) :
    lookupDb (upsert_request_success db i n dur) j = lookupDb db j := by
  induction db with
  | nil => simp [upsert_request_success, lookupDb, h]
  | cons p rest ih =>
    obtain ⟨k, v⟩ := p
    by_cases hk : k = i
    · subst hk
      simp [upsert_request_success, lookupDb, h]
    · simp [upsert_request_success, hk, lookupDb, ih]

theorem lookup_append_some (db l : Db) {j : List Char} {v : DbRec}
    (h : lookupDb db j = some v) : lookupDb (db ++ l) j = some v := by
  induction db with
  | nil => simp [lookupDb] at h
  | cons p rest ih =>
    obtain ⟨k, w⟩ := p
    by_cases hk : k = j
    · simp [lookupDb, hk] at h ⊢
      exact h
    · simp [lookupDb, hk] at h ⊢
      exact ih h

theorem lookup_append_none (db l : Db) {j : List Char}
    (h : lookupDb db j = none) : lookupDb (db ++ l) j = lookupDb l j := by
  induction db with
  | nil => simp [lookupDb]
  | cons p rest ih =>
    obtain ⟨k, w⟩ := p
    by_cases hk : k = j
    · simp [lookupDb, hk] at h
    · simp [lookupDb, hk] at h ⊢
      exact ih h

theorem check_eq_true_iff (db : Db) (i : List Char) :
    check_request_success db i = true
      ↔ ∃ v, lookupDb db i = some v ∧ v.state = ReqState.success := by
  unfold check_request_success
  cases h : lookupDb db i with
  | none => simp
  | some v => simp [beq_iff_eq]

theorem success_preserved (db : Db) (req : TopTimesRequest) (oc : FetchOutcome)
    {i : List Char} (h : check_request_success db i = true) :
    check_request_success (processStep db req oc).db i = true := by
  unfold processStep
  by_cases hc : check_request_success db (reqId req) = true
  · simp [hc]
    exact h
  · cases oc with
    | ok l =>
      simp [hc]
      by_cases he : reqId req = i
      · subst he
        rw [check_eq_true_iff]
        exact ⟨_, lookup_upsert_success_self db _ l 0, rfl⟩
      · rw [check_eq_true_iff] at h ⊢
        obtain ⟨v, hv, hs⟩ := h
        exact ⟨v, by rw [lookup_upsert_success_ne db l 0 he]; exact hv, hs⟩
    | err e =>
      simp [hc]
      unfold upsert_request_error
      split
      · exact h
      · rw [check_eq_true_iff] at h ⊢
        obtain ⟨v, hv, hs⟩ := h
        exact ⟨v, lookup_append_some db _ hv, hs⟩

/-- **C6**: `upsert_request_success` overwrites any prior row (in particular an
error row), `upsert_request_error` inserts only when no row of any state
exists (never overwriting a success, never duplicating an error), so running
the two in either order leaves a success row for the id. -/
theorem c6_store_semantics :
    (∀ (db : Db) (i e : List Char) (n : Nat) (d1 d2 : Rat),
        check_request_success
          (upsert_request_error (upsert_request_success db i n d1) i e d2) i = true) ∧
    (∀ (db : Db) (i e : List Char) (n : Nat) (d1 d2 : Rat),
        check_request_success
          (upsert_request_success (upsert_request_error db i e d2) i n d1) i = true) ∧
    (∀ (db : Db) (i : List Char) (n : Nat) (d : Rat),
        lookupDb (upsert_request_success db i n d) i
          = some ⟨ReqState.success, some n, none, d⟩) ∧
    (∀ (db : Db) (i e : List Char) (d : Rat),
        (lookupDb db i).isSome = true → upsert_request_error db i e d = db) ∧
    (∀ (db : Db) (i e : List Char) (d : Rat),
        lookupDb db i = none →
        lookupDb (upsert_request_error db i e d) i
          = some ⟨ReqState.error, none, some e, d⟩) := by
  refine ⟨?_, ?_, ?_, ?_, ?_⟩
  · intro db i e n d1 d2
    have hs := lookup_upsert_success_self db i n d1
    simp [upsert_request_error, hs, check_request_success]
  · intro db i e n d1 d2
    simp [check_request_success, lookup_upsert_success_self]
  · intro db i n d
    exact lookup_upsert_success_self db i n d
  · intro db i e d h
    simp [upsert_request_error, h]
  · intro db i e d h
    simp only [upsert_request_error, h, Option.isSome_none, Bool.false_eq_true,
      if_false]
    rw [lookup_append_none db _ h]
    simp [lookupDb]

/-- Witness for `c6_store_semantics` at a concrete store and key. -/
theorem c6_store_semantics_witness :
    (lookupDb c6Db c6Id).isSome = true ∧
    upsert_request_error c6Db c6Id c6Err 0 = c6Db ∧
    lookupDb ([] : Db) c6Id = none ∧
    lookupDb (upsert_request_error [] c6Id c6Err 0) c6Id
      = some ⟨ReqState.error, none, some c6Err, 0⟩ :=
  ⟨by decide, c6_store_semantics.2.2.2.1 c6Db c6Id c6Err 0 (by decide),
   by decide, c6_store_semantics.2.2.2.2 [] c6Id c6Err 0 (by decide)⟩

/-- **C5**: a worker skips (does not fetch, does not modify the store, does not
requeue) any request whose identity already has a success row, and across a
whole worker run no identity with a pre-existing success row is ever fetched. -/
theorem c5_success_never_refetched :
    (∀ (db : Db) (req : TopTimesRequest) (oc : FetchOutcome),
        check_request_success db (reqId req) = true →
        processStep db req oc = ⟨db, false, []⟩) ∧
    (∀ (db : Db) (trace : List (TopTimesRequest × FetchOutcome)) (i : List Char),
        check_request_success db i = true →
        i ∉ (runWorker db trace).2) := by
  constructor
  · intro db req oc h
    simp [processStep, h]
  · intro db trace
    induction trace generalizing db with
    | nil =>
      intro i h
      simp [runWorker]
    | cons p rest ih =>
      intro i h
      obtain ⟨req, oc⟩ := p
      show i ∉ (if (processStep db req oc).fetched then [reqId req] else [])
          ++ (runWorker (processStep db req oc).db rest).2
      intro hmem
      rcases List.mem_append.mp hmem with h1 | h2
      · by_cases hc : check_request_success db (reqId req) = true
        · rw [show processStep db req oc = ⟨db, false, []⟩ by simp [processStep, hc]] at h1
          simp at h1
        · have hi : i = reqId req := by
            cases hf : (processStep db req oc).fetched
            · rw [hf] at h1; simp at h1
            · rw [hf] at h1; simpa using h1
          rw [hi] at h
          exact hc h
      · exact ih _ i (success_preserved db req oc h) h2

/-- Witness for `c5_success_never_refetched` at a concrete store and trace. -/
theorem c5_success_never_refetched_witness :
    check_request_success c5Db (reqId c1Req) = true ∧
    reqId c1Req ∉ (runWorker c5Db [(c1Req, FetchOutcome.ok 3)]).2 :=
  ⟨by decide,
   c5_success_never_refetched.2 c5Db [(c1Req, FetchOutcome.ok 3)] (reqId c1Req) (by decide)⟩

/-- **C1** (amended): on a successful fetch the worker records success and does
not requeue, for every result count — including counts at the request's
`max_results` cap (there is no saturation detection); the first-generation
pipeline likewise always writes the result file and merely adds a warning file
at counts of 4900 or more. -/
theorem c1_saturated_success_recorded :
    ∀ (db : Db) (req : TopTimesRequest) (n : Nat),
      check_request_success db (reqId req) = false →
      (processStep db req (FetchOutcome.ok n)).requeued = [] ∧
      (processStep db req (FetchOutcome.ok n)).fetched = true ∧
      check_request_success (processStep db req (FetchOutcome.ok n)).db (reqId req) = true ∧
      (make_request_effect (FetchOutcome.ok n)).wroteResult = true ∧
      (make_request_effect (FetchOutcome.ok n)).requeued = false ∧
      ((make_request_effect (FetchOutcome.ok n)).warned = true ↔ 4900 ≤ n) := by
  intro db req n h
  have hc : ¬ check_request_success db (reqId req) = true := by simp [h]
  have hps : processStep db req (FetchOutcome.ok n)
      = ⟨upsert_request_success db (reqId req) n 0, true, []⟩ := by
    simp [processStep, hc]
  rw [hps]
  refine ⟨rfl, rfl, ?_, rfl, rfl, ?_⟩
  · simp [check_request_success, lookup_upsert_success_self]
  · simp [make_request_effect]

/-- Witness for `c1_saturated_success_recorded`: empty store, default request,
result count equal to the 50000 cap. -/
theorem c1_saturated_success_recorded_witness :
    check_request_success [] (reqId c1Req) = false ∧
    ((processStep [] c1Req (FetchOutcome.ok 50000)).requeued = [] ∧
     (processStep [] c1Req (FetchOutcome.ok 50000)).fetched = true ∧
     check_request_success (processStep [] c1Req (FetchOutcome.ok 50000)).db
       (reqId c1Req) = true ∧
     (make_request_effect (FetchOutcome.ok 50000)).wroteResult = true ∧
     (make_request_effect (FetchOutcome.ok 50000)).requeued = false ∧
     ((make_request_effect (FetchOutcome.ok 50000)).warned = true ↔ 4900 ≤ 50000)) :=
  ⟨by decide, c1_saturated_success_recorded [] c1Req 50000 (by decide)⟩

/-- Counterexample to **C1** as stated: a fetch returning exactly the
`max_results` cap (50000 of 50000) is recorded as success and nothing is
requeued; in the first-generation pipeline a result at the 4900 warning
threshold still writes the result file and is not requeued. -/
theorem c1_counterexample :
    c1Req.max_results = 50000 ∧
    (processStep [] c1Req (FetchOutcome.ok 50000)).requeued = [] ∧
    check_request_success (processStep [] c1Req (FetchOutcome.ok 50000)).db
      (reqId c1Req) = true ∧
    (make_request_effect (FetchOutcome.ok 4900)).wroteResult = true ∧
    (make_request_effect (FetchOutcome.ok 4900)).requeued = false := by
  decide

/-- **C8** (amended): the identity is deterministic and injective over requests
with `lscs = None` (as every pipeline request has) and chrono-representable
dates: two such requests get the same lower-cased identity string iff they are
equal. The string also encodes time type, the two flags and the result cap,
and although `_` serves as a separator while also occurring inside the
distance facet's rendering, splitting at the first separator keeps the
decomposition unambiguous. -/
theorem c8_identity_injective :
    ∀ q1 q2 : TopTimesRequest,
      q1.lscs = none → q2.lscs = none →
      q1.from_date.valid → q1.to_date.valid → q2.from_date.valid → q2.to_date.valid →
      (reqId q1 = reqId q2 ↔ q1 = q2) := by
  intro q1 q2 hl1 hl2 hf1 ht1 hf2 ht2
  exact ⟨reqId_inj hl1 hl2 hf1 ht1 hf2 ht2, fun h => by rw [h]⟩

/-- Witness for `c8_identity_injective` at two concrete requests. -/
theorem c8_identity_injective_witness :
    (c8ReqA.lscs = none ∧ c8ReqB.lscs = none ∧
     c8ReqA.from_date.valid ∧ c8ReqA.to_date.valid ∧
     c8ReqB.from_date.valid ∧ c8ReqB.to_date.valid) ∧
    (reqId c8ReqA = reqId c8ReqB ↔ c8ReqA = c8ReqB) :=
  ⟨by decide,
   c8_identity_injective c8ReqA c8ReqB (by decide) (by decide) (by decide)
     (by decide) (by decide) (by decide)⟩

/-- Counterexample to **C8** as stated: the separator `_` does occur in a
facet's string form (the distance rendering `_50`), and two requests agreeing
on every facet listed by the claim (gender, course, stroke, distance, dates,
ages, zone) can still receive different identity strings, because the identity
also encodes the result cap (and time type, flags, LSCs). -/
theorem c8_counterexample :
    '_' ∈ distStr Distance.d50 ∧
    c8ReqA.gender = c8ReqC.gender ∧ c8ReqA.course = c8ReqC.course ∧
    c8ReqA.stroke = c8ReqC.stroke ∧ c8ReqA.distance = c8ReqC.distance ∧
    c8ReqA.from_date = c8ReqC.from_date ∧ c8ReqA.to_date = c8ReqC.to_date ∧
    c8ReqA.start_age = c8ReqC.start_age ∧ c8ReqA.end_age = c8ReqC.end_age ∧
    c8ReqA.zone = c8ReqC.zone ∧
    reqId c8ReqA ≠ reqId c8ReqC := by
  decide

/-- **C10**: every request emitted by `produce_requests` is a single-day,
single-gender (male or female) request whose age band comes from the fixed
17-entry table covering all ages, with distance, stroke, course, zone and LSCs
left at their wildcard defaults, individual times, both flags false and the
50000 result cap. -/
theorem c10_seed_grid_shape :
    ∀ (today f t : CDate) (r : TopTimesRequest), r ∈ produce_requests today f t →
      (r.from_date = r.to_date ∧
       (r.gender = Gender.male ∨ r.gender = Gender.female) ∧
       (r.start_age, r.end_age) ∈ AGE_RANGE ∧
       r.distance = Distance.all ∧ r.stroke = Stroke.all ∧ r.course = Course.all ∧
       r.zone = Zone.all ∧ r.lscs = none ∧ r.time_type = TimeType.individual ∧
       r.members_only = false ∧ r.best_only = false ∧ r.max_results = 50000) ∧
      AGE_RANGE.length = 17 ∧
      (∀ a : Nat, ∃ p ∈ AGE_RANGE, Usas.optLB p.1 a ∧ Usas.optUB p.2 a) := by
  intro today f t r hr
  refine ⟨?_, rfl, ?_⟩
  · simp only [produce_requests, List.mem_flatMap] at hr
    obtain ⟨d, -, ae, hae, hr⟩ := hr
    have hr2 : r = { defaultReq today with
        gender := .male, from_date := d, to_date := d,
        start_age := ae.1, end_age := ae.2 } ∨
      r = { defaultReq today with
        gender := .female, from_date := d, to_date := d,
        start_age := ae.1, end_age := ae.2 } := by
      simpa using hr
    rcases hr2 with rfl | rfl
    · exact ⟨rfl, Or.inl rfl, by simpa using hae, rfl, rfl, rfl, rfl, rfl, rfl,
        rfl, rfl, rfl⟩
    · exact ⟨rfl, Or.inr rfl, by simpa using hae, rfl, rfl, rfl, rfl, rfl, rfl,
        rfl, rfl, rfl⟩
  · intro a
    by_cases h7 : a ≤ 7
    · exact ⟨(some 0, some 7), by decide, by simp [Usas.optLB],
        by simpa [Usas.optUB] using h7⟩
    · by_cases h23 : 23 ≤ a
      · exact ⟨(some 23, none), by decide, by simpa [Usas.optLB] using h23,
          by simp [Usas.optUB]⟩
      · refine ⟨(some a, some a), ?_, by simp [Usas.optLB], by simp [Usas.optUB]⟩
        have h8 : 8 ≤ a := by omega
        have h22 : a ≤ 22 := by omega
        interval_cases a <;> decide

/-- Witness for `c10_seed_grid_shape`: the first grid request of a one-day
window. -/
theorem c10_seed_grid_shape_witness :
    c10Req ∈ produce_requests exToday exToday exToday ∧
    (c10Req.from_date = c10Req.to_date ∧
     (c10Req.gender = Gender.male ∨ c10Req.gender = Gender.female) ∧
     (c10Req.start_age, c10Req.end_age) ∈ AGE_RANGE ∧
     c10Req.distance = Distance.all ∧ c10Req.stroke = Stroke.all ∧
     c10Req.course = Course.all ∧ c10Req.zone = Zone.all ∧ c10Req.lscs = none ∧
     c10Req.time_type = TimeType.individual ∧ c10Req.members_only = false ∧
     c10Req.best_only = false ∧ c10Req.max_results = 50000) :=
  ⟨by decide,
   (c10_seed_grid_shape exToday exToday exToday c10Req (by decide)).1⟩

end Swimrs
